import Mathlib

/-!
Verification development for the `backports.lzma` / `lzmaffi` repository.

The Python code drives an external codec engine (liblzma) through an
incremental buffer-growth loop (`src/backports/lzma/_lzmamodule2.py`),
wraps it in sequential file objects and one-shot helpers
(`src/lzmaffi/__init__.py`), and provides a seekable reader over the
indexed container format.  The codec engine itself is an external
collaborator; here it is an explicit parameter (`Engine`), and a small
executable model codec (`toyEnc`/`toyDec`) instantiates it where a
concrete engine is needed.
-/

deriving instance DecidableEq for Except

namespace LzmaModel

/-- Action passed to the engine: `LZMA_RUN` or `LZMA_FINISH`. -/
inductive LzAction
  | run
  | finish
deriving DecidableEq, Repr

/-- Status reported by one engine step, mirroring the `lzma_ret` values the
driver reacts to: `LZMA_OK`, `LZMA_NO_CHECK`/`LZMA_GET_CHECK` (folded into
`tellCheck` with the value `lzma_get_check` would return), `LZMA_STREAM_END`,
and the error statuses on which `catch_lzma_error` raises. -/
inductive LzStatus
  | ok
  | tellCheck (c : Nat)
  | streamEnd
  | failed
deriving DecidableEq, Repr

/-- Result of one `lzma_code` call: how much of the available input was
consumed, the bytes written into the output buffer, the status, and the new
engine state. -/
structure StepRes (σ : Type) where
  consumed : Nat
  out : List Nat
  status : LzStatus
  lzs : σ
deriving DecidableEq, Repr

/-- The external codec engine binding: an initial state and a step function
`step state input availOut action`. -/
structure Engine (σ : Type) where
  start : σ
  step : σ → List Nat → Nat → LzAction → StepRes σ

/-- Engine contract (spec section 6): a step never consumes more input than
offered and never writes more than the available output space. -/
def EngineWF {σ : Type} (E : Engine σ) : Prop :=
  ∀ s inp avail a, (E.step s inp avail a).consumed ≤ inp.length ∧
    (E.step s inp avail a).out.length ≤ avail

/-- Errors raised by the Python code (each constructor corresponds to one
`raise` site). `fuel` is a modelling artifact marking loop non-termination. -/
inductive Err
  | fuel
  | corrupt
  | alreadyEOF
  | flushedAlready
  | prematureEnd
  | headerFooterMismatch
  | fileTooSmall
  | fileEmpty
  | ioError
deriving DecidableEq, Repr

/-- `CHECK_UNKNOWN = CHECK_ID_MAX + 1` with liblzma's `LZMA_CHECK_ID_MAX = 15`. -/
def CHECK_UNKNOWN : Nat := 16

/-- State of an `LZMADecompressor` object: the fields set in `__init__` and
mutated by `_decompress` (`self.check`, `self.unused_data`, `self.eof`,
`self.lzs`). -/
structure DecompSt (σ : Type) where
  check : Nat
  unused_data : List Nat
  eof : Bool
  lzs : σ
deriving DecidableEq, Repr

/-- Running state of the `while True` loop of `LZMADecompressor._decompress`:
the decompressor object, the unconsumed input (`next_in`/`avail_in`), the
completed output segments (`outs` without its last element), the bytes
written into the current segment, the current segment's size (`siz`), and a
ghost trace recording the output chunk of every engine call. -/
structure DecRunSt (σ : Type) where
  dec : DecompSt σ
  inp : List Nat
  done : List (List Nat)
  cur : List Nat
  curSize : Nat
  trace : List (List Nat)
deriving DecidableEq, Repr

/-- One iteration of the `while True` loop of `LZMADecompressor._decompress`
(`_lzmamodule2.py` lines 375-395): one `lzma_code` call followed by the
status/`avail_in`/`avail_out` tests.  `avail_out` is `curSize - cur.length`.
Returns `(true, s)` when the loop breaks in state `s`, `(false, s)` when it
continues (possibly after appending a fresh 512-byte segment, exactly as the
Python code appends to `outs`). -/
def decIter {σ : Type} (E : Engine σ) (s : DecRunSt σ) :
    Except Err (Bool × DecRunSt σ) :=
  let r := E.step s.dec.lzs s.inp (s.curSize - s.cur.length) .run
  let inp2 := s.inp.drop r.consumed
  let cur2 := s.cur ++ r.out
  let check2 := match r.status with
    | .tellCheck c => c
    | _ => s.dec.check
  let s2 : DecRunSt σ :=
    { dec := { check := check2, unused_data := s.dec.unused_data,
               eof := s.dec.eof, lzs := r.lzs },
      inp := inp2, done := s.done, cur := cur2, curSize := s.curSize,
      trace := s.trace ++ [r.out] }
  let unused2 := if inp2 = [] then s.dec.unused_data else inp2
  if r.status = .failed then .error .corrupt
  else if r.status = .streamEnd then
    .ok (true, { s2 with
          dec := { check := check2, unused_data := unused2, eof := true, lzs := r.lzs } })
  else if inp2 = [] then .ok (true, s2)
  else if s.curSize - cur2.length = 0 then
    .ok (false, { s2 with done := s.done ++ [cur2], cur := [], curSize := 512 })
  else .ok (false, s2)

/-- The `while True` loop of `LZMADecompressor._decompress`, iterating
`decIter` until it reports a break. -/
def decLoop {σ : Type} (E : Engine σ) : Nat → DecRunSt σ → Except Err (DecRunSt σ)
  | 0, _ => .error .fuel
  | fuel + 1, s =>
    match decIter E s with
    | .error e => .error e
    | .ok (true, r) => .ok r
    | .ok (false, s2) => decLoop E fuel s2

/-- Result of one `_decompress` call: the returned bytes, the updated object
state, the ghost trace of engine output chunks, and the unconsumed input. -/
structure DecCall (σ : Type) where
  out : List Nat
  dec : DecompSt σ
  trace : List (List Nat)
  inpRem : List Nat
deriving DecidableEq, Repr

/-- `LZMADecompressor._decompress` (`_lzmamodule2.py` lines 361-399):
`BUFSIZ = 8192` initial segment, loop, then
`b''.join(outs) + last_out_piece` assembles the result. -/
def decompressBody {σ : Type} (E : Engine σ) (fuel : Nat) (dec : DecompSt σ)
    (data : List Nat) : Except Err (DecCall σ) :=
  (decLoop E fuel
      { dec := dec, inp := data, done := [], cur := [], curSize := 8192,
        trace := [] }).map
    (fun s => { out := s.done.flatten ++ s.cur, dec := s.dec,
                trace := s.trace, inpRem := s.inp })

namespace LZMADecompressor

/-- `LZMADecompressor.__init__`: `check = CHECK_UNKNOWN`, `unused_data = b''`,
`eof = False`, fresh engine state. -/
def mk {σ : Type} (E : Engine σ) : DecompSt σ :=
  { check := CHECK_UNKNOWN, unused_data := [], eof := false, lzs := E.start }

/-- `LZMADecompressor.decompress` (lines 355-359): raises `EOFError` if `eof`
is already set, otherwise runs `_decompress`. -/
def decompress {σ : Type} (E : Engine σ) (fuel : Nat) (dec : DecompSt σ)
    (data : List Nat) : Except Err (List Nat × DecompSt σ) :=
  if dec.eof then .error .alreadyEOF
  else (decompressBody E fuel dec data).map (fun r => (r.out, r.dec))

end LZMADecompressor

/-- State of an `LZMACompressor` object: `self.flushed` and `self.lzs`. -/
structure CompressSt (σ : Type) where
  flushed : Bool
  lzs : σ
deriving DecidableEq, Repr

/-- Running state of the `while True` loop of `LZMACompressor._compress`,
with the same segment bookkeeping and ghost trace as `DecRunSt`. -/
structure CompRunSt (σ : Type) where
  lzs : σ
  inp : List Nat
  done : List (List Nat)
  cur : List Nat
  curSize : Nat
  trace : List (List Nat)
deriving DecidableEq, Repr

/-- One iteration of the `while True` loop of `LZMACompressor._compress`
(`_lzmamodule2.py` lines 452-465): break when (`RUN` and all input consumed)
or (`FINISH` and the engine reported stream end); grow the output by a
512-byte segment when `avail_out` reaches 0. -/
def compIter {σ : Type} (E : Engine σ) (action : LzAction) (s : CompRunSt σ) :
    Except Err (Bool × CompRunSt σ) :=
  let r := E.step s.lzs s.inp (s.curSize - s.cur.length) action
  let inp2 := s.inp.drop r.consumed
  let cur2 := s.cur ++ r.out
  let s2 : CompRunSt σ :=
    { lzs := r.lzs, inp := inp2, done := s.done, cur := cur2,
      curSize := s.curSize, trace := s.trace ++ [r.out] }
  if r.status = .failed then .error .corrupt
  else if (action = .run ∧ inp2 = []) ∨
      (action = .finish ∧ r.status = .streamEnd) then .ok (true, s2)
  else if s.curSize - cur2.length = 0 then
    .ok (false, { s2 with done := s.done ++ [cur2], cur := [], curSize := 512 })
  else .ok (false, s2)

/-- The `while True` loop of `LZMACompressor._compress`, iterating
`compIter` until it reports a break. -/
def compLoop {σ : Type} (E : Engine σ) (action : LzAction) :
    Nat → CompRunSt σ → Except Err (CompRunSt σ)
  | 0, _ => .error .fuel
  | fuel + 1, s =>
    match compIter E action s with
    | .error e => .error e
    | .ok (true, r) => .ok r
    | .ok (false, s2) => compLoop E action fuel s2

/-- Result of one `_compress` call. -/
structure CompCall (σ : Type) where
  out : List Nat
  lzs : σ
  trace : List (List Nat)
  inpRem : List Nat
deriving DecidableEq, Repr

/-- `LZMACompressor._compress` (lines 439-469). -/
def compressBody {σ : Type} (E : Engine σ) (fuel : Nat) (lzs : σ)
    (data : List Nat) (action : LzAction) : Except Err (CompCall σ) :=
  (compLoop E action fuel
      { lzs := lzs, inp := data, done := [], cur := [], curSize := 8192,
        trace := [] }).map
    (fun s => { out := s.done.flatten ++ s.cur, lzs := s.lzs,
                trace := s.trace, inpRem := s.inp })

namespace LZMACompressor

/-- `LZMACompressor.__init__`: `flushed = 0`, fresh engine state. -/
def mk {σ : Type} (E : Engine σ) : CompressSt σ :=
  { flushed := false, lzs := E.start }

/-- `LZMACompressor.compress` (lines 433-437): raises `ValueError` if the
compressor was already flushed, otherwise runs `_compress` with `LZMA_RUN`. -/
def compress {σ : Type} (E : Engine σ) (fuel : Nat) (c : CompressSt σ)
    (data : List Nat) : Except Err (List Nat × CompressSt σ) :=
  if c.flushed then .error .flushedAlready
  else (compressBody E fuel c.lzs data .run).map
    (fun r => (r.out, { flushed := c.flushed, lzs := r.lzs }))

/-- `LZMACompressor.flush` (lines 471-476): raises `ValueError` on a repeated
flush, otherwise sets `flushed` and runs `_compress(b'', LZMA_FINISH)`. -/
def flush {σ : Type} (E : Engine σ) (fuel : Nat) (c : CompressSt σ) :
    Except Err (List Nat × CompressSt σ) :=
  if c.flushed then .error .flushedAlready
  else (compressBody E fuel c.lzs [] .finish).map
    (fun r => (r.out, { flushed := true, lzs := r.lzs }))

end LZMACompressor

/-- One-shot `compress` (`lzmaffi/__init__.py` lines 693-702):
`comp.compress(data) + comp.flush()` on a fresh compressor. -/
def oneShotCompress {σ : Type} (E : Engine σ) (fuel : Nat) (data : List Nat) :
    Except Err (List Nat) := do
  let c := LZMACompressor.mk E
  let (o1, c1) ← LZMACompressor.compress E fuel c data
  let (o2, _) ← LZMACompressor.flush E fuel c1
  return o1 ++ o2

/-- The `while True` loop of the one-shot `decompress`
(`lzmaffi/__init__.py` lines 713-723): one fresh decompressor per stream,
`LZMAError` if a stream did not reach its end-of-stream marker, recursion on
`unused_data`. -/
def oneShotDecompressLoop {σ : Type} (E : Engine σ) (dfuel : Nat) :
    Nat → List Nat → List (List Nat) → Except Err (List Nat)
  | 0, _, _ => .error .fuel
  | n + 1, data, results =>
    let d := LZMADecompressor.mk E
    match LZMADecompressor.decompress E dfuel d data with
    | .error e => .error e
    | .ok (o, d2) =>
      if d2.eof = false then .error .prematureEnd
      else if d2.unused_data = [] then .ok ((results ++ [o]).flatten)
      else oneShotDecompressLoop E dfuel n d2.unused_data (results ++ [o])

/-- One-shot `decompress` (`lzmaffi/__init__.py` lines 705-724). -/
def oneShotDecompress {σ : Type} (E : Engine σ) (dfuel ofuel : Nat)
    (data : List Nat) : Except Err (List Nat) :=
  oneShotDecompressLoop E dfuel ofuel data []

/-! ## A concrete model codec

The entropy coder is external to this repository (spec section 1), so the
round-trip claims are settled against the drivers instantiated with a small
model codec: a byte `b` is encoded as the pair `1, b` and the end-of-stream
marker is a single `0` byte.  The decoder engine keeps one bit of state
(whether it has consumed a `1` tag and is waiting for the literal), so that
it tolerates arbitrary chunk boundaries, and emits at most one literal per
step; the encoder engine emits a whole pair per step and therefore needs at
least 2 bytes of output space (the driver's buffer sizes 8192 and 512 are
even, so `avail_out` can only vanish at a pair boundary). -/

/-- Model decoder engine step.  State: `true` iff a `1` tag has been consumed
and the literal byte is still pending. -/
def toyDecStep (s : Bool) (inp : List Nat) (avail : Nat) (_a : LzAction) :
    StepRes Bool :=
  match s, inp with
  | true, [] => ⟨0, [], .ok, true⟩
  | true, b :: _ => if avail = 0 then ⟨0, [], .ok, true⟩ else ⟨1, [b], .ok, false⟩
  | false, [] => ⟨0, [], .ok, false⟩
  | false, 0 :: _ => ⟨1, [], .streamEnd, false⟩
  | false, 1 :: _ => ⟨1, [], .ok, true⟩
  | false, _ :: _ => ⟨0, [], .failed, false⟩

/-- Model decoder engine. -/
def toyDec : Engine Bool := ⟨false, toyDecStep⟩

/-- Model encoder engine step.  State: `true` iff the end-of-stream marker
has been written. -/
def toyEncStep (s : Bool) (inp : List Nat) (avail : Nat) (a : LzAction) :
    StepRes Bool :=
  match inp with
  | b :: _ => if 2 ≤ avail then ⟨1, [1, b], .ok, s⟩ else ⟨0, [], .ok, s⟩
  | [] =>
    match a with
    | .run => ⟨0, [], .ok, s⟩
    | .finish =>
      if s then ⟨0, [], .streamEnd, true⟩
      else if 1 ≤ avail then ⟨0, [0], .streamEnd, true⟩
      else ⟨0, [], .ok, false⟩

/-- Model encoder engine. -/
def toyEnc : Engine Bool := ⟨false, toyEncStep⟩

/-- The model codec's encoding of a byte sequence, without the end marker. -/
def encodeBytes : List Nat → List Nat
  | [] => []
  | b :: r => 1 :: b :: encodeBytes r

/-- The complete model-codec compressed stream for a byte sequence. -/
def toyCompress (b : List Nat) : List Nat := encodeBytes b ++ [0]

/-- Outcome of decoding a chunk with the model codec: output bytes, whether
the end marker was reached, the bytes after the marker, final decoder state. -/
structure ToyRunRes where
  out : List Nat
  eof : Bool
  rest : List Nat
  st : Bool
deriving DecidableEq, Repr

/-- Reference semantics of the model decoder on one input chunk, starting
from decoder state `s`.  `none` means a corrupt tag byte. -/
def toyRun : Bool → List Nat → Option ToyRunRes
  | true, [] => some ⟨[], false, [], true⟩
  | true, b :: r =>
    (toyRun false r).map (fun q => ⟨b :: q.out, q.eof, q.rest, q.st⟩)
  | false, [] => some ⟨[], false, [], false⟩
  | false, 0 :: r => some ⟨[], true, r, false⟩
  | false, 1 :: r => toyRun true r
  | false, _ :: _ => none

/-! ## The sequential file wrapper `_LZMAFile` -/

/-- File modes (`_MODE_CLOSED`, `_MODE_READ`, `_MODE_READ_EOF`, `_MODE_WRITE`). -/
inductive FMode
  | closed
  | read
  | readEof
  | write
deriving DecidableEq, Repr

/-- Reading state of an `_LZMAFile` (`lzmaffi/__init__.py`): the underlying
byte source (`self._fp`, modelled as the bytes not yet read), the current
decompressor, the readahead buffer, position, mode and size. -/
structure LZMAFileSt (σ : Type) where
  fp : List Nat
  dec : DecompSt σ
  buffer : List Nat
  pos : Nat
  mode : FMode
  size : Int
deriving DecidableEq, Repr

/-- `io.DEFAULT_BUFFER_SIZE`, the chunk size of `self._fp.read(_BUFFER_SIZE)`. -/
def BUFFER_SIZE : Nat := 8192

namespace LZMAFile

/-- `_LZMAFile.__init__` in read mode on an in-memory source. -/
def openRead {σ : Type} (E : Engine σ) (data : List Nat) : LZMAFileSt σ :=
  { fp := data, dec := LZMADecompressor.mk E, buffer := [], pos := 0,
    mode := .read, size := -1 }

/-- One iteration of the `while True` loop of `_LZMAFile._fill_buffer`
(`lzmaffi/__init__.py` lines 151-176): return with `True` if the buffer is
non-empty; otherwise drain `unused_data` first, else read a chunk from the
source; if nothing is left, report EOF or raise `EOFError` depending on
whether the decompressor finished; construct a fresh decompressor when the
previous stream finished; feed the block and continue the loop.
`.inl` is a `return`, `.inr` continues the loop. -/
def fillIter {σ : Type} (E : Engine σ) (dfuel : Nat) (st : LZMAFileSt σ) :
    Except Err ((LZMAFileSt σ × Bool) ⊕ LZMAFileSt σ) :=
  if st.buffer ≠ [] then .ok (.inl (st, true))
  else
    let rawblock := if st.dec.unused_data ≠ [] then st.dec.unused_data
                    else st.fp.take BUFFER_SIZE
    let fp2 := if st.dec.unused_data ≠ [] then st.fp else st.fp.drop BUFFER_SIZE
    if rawblock = [] then
      if st.dec.eof then
        .ok (.inl ({ st with mode := .readEof, size := (st.pos : Int) }, false))
      else .error .prematureEnd
    else
      let d1 := if st.dec.eof then LZMADecompressor.mk E else st.dec
      match LZMADecompressor.decompress E dfuel d1 rawblock with
      | .error e => .error e
      | .ok (o, d2) => .ok (.inr { st with fp := fp2, dec := d2, buffer := o })

/-- `_LZMAFile._fill_buffer`, iterating `fillIter` until it returns. -/
def fillBuffer {σ : Type} (E : Engine σ) (dfuel : Nat) :
    Nat → LZMAFileSt σ → Except Err (LZMAFileSt σ × Bool)
  | 0, _ => .error .fuel
  | n + 1, st =>
    match fillIter E dfuel st with
    | .error e => .error e
    | .ok (.inl r) => .ok r
    | .ok (.inr st2) => fillBuffer E dfuel n st2

/-- `_LZMAFile._read_all` (lines 180-188). -/
def readAll {σ : Type} (E : Engine σ) (dfuel ffuel : Nat) :
    Nat → LZMAFileSt σ → Except Err (LZMAFileSt σ × List Nat)
  | 0, _ => .error .fuel
  | n + 1, st =>
    match fillBuffer E dfuel ffuel st with
    | .error e => .error e
    | .ok (st2, false) => .ok (st2, [])
    | .ok (st2, true) =>
      match readAll E dfuel ffuel n { st2 with buffer := [], pos := st2.pos + st2.buffer.length } with
      | .error e => .error e
      | .ok (st3, rest) => .ok (st3, st2.buffer ++ rest)

end LZMAFile

/-! ### Model-decoder facts used by the wrapper proofs -/

/-- Full decode of the remaining input as the continuation of the current
stream (starting in decoder state `s`) followed by further whole streams,
as the sequential wrapper will see it.  `none` when the input is corrupt or
ends before an end-of-stream marker. -/
def contD : Nat → Bool → List Nat → Option (List Nat)
  | 0, _, _ => none
  | n + 1, s, data =>
    match toyRun s data with
    | none => none
    | some q =>
      if q.eof then
        (if q.rest = [] then some q.out
         else (contD n false q.rest).map (q.out ++ ·))
      else none

/-- The bytes the sequential wrapper still has to deliver, decoded from its
pending state: if the current decompressor finished, the leftover
`unused_data` followed by the unread source bytes form whole streams;
otherwise the unread source bytes continue the current stream. -/
def wrapPend (st : LZMAFileSt Bool) : Option (List Nat) :=
  if st.dec.eof then
    (if st.dec.unused_data ++ st.fp = [] then some []
     else contD ((st.dec.unused_data ++ st.fp).length + 1) false
       (st.dec.unused_data ++ st.fp))
  else contD (st.fp.length + 1) st.dec.lzs st.fp

/-! ## The seekable reader `_SeekableXZFile`

The index object and the per-block decompressor come from the real lzmaffi
`_lzmamodule2` (`decode_index`, `lzma_index_*`, `FORMAT_BLOCK`), which is not
part of this repository snapshot; they are modelled from the spec.  The
reader logic itself (`seek`, `_move_to_block`, `_init_decompressor`,
`_fill_buffer`, `_read_block`, `_read_all`, `read`) is embedded from
`src/lzmaffi/__init__.py`. -/

/-- Modelled from the spec (section 3, "Block"): one block record of the
global index, with its compressed and uncompressed file offsets. -/
structure XZBlock where
  compOff : Nat
  unpaddedSize : Nat
  uncompSize : Nat
  uncompOff : Nat
deriving DecidableEq, Repr

/-- Whether `o` lies in the block's uncompressed range. -/
def blockContains (b : XZBlock) (o : Nat) : Bool :=
  decide (b.uncompOff ≤ o) && decide (o < b.uncompOff + b.uncompSize)

/-- Modelled from the spec (section 3, "Index" / section 4.3,
"Offset-to-block lookup"): `index.find(offset)` returns the block whose
uncompressed range contains the offset, or nothing past the end. -/
def indexFind (idx : List XZBlock) (o : Nat) : Option XZBlock :=
  idx.find? (fun b => blockContains b o)

/-- Modelled from the spec (section 3): `index.uncompressed_size`, the sum of
the block uncompressed sizes. -/
def indexTotal (idx : List XZBlock) : Nat := (idx.map (·.uncompSize)).sum

/-- State of a `_SeekableXZFile`: mode, absolute uncompressed position,
the loaded block's range (`self._block_offset`, `self._block_ends_at`), the
readahead buffer, the modelled block decompressor (`rem` = the bytes of the
current block not yet produced), and a ghost counter of `LZMADecompressor`
constructions (incremented by `_init_decompressor`). -/
structure SeekSt where
  mode : FMode
  pos : Nat
  blockOffset : Nat
  blockEndsAt : Nat
  buffer : List Nat
  rem : List Nat
  decompCount : Nat
deriving DecidableEq, Repr

/-- `_SeekableXZFile._init_decompressor` (`lzmaffi/__init__.py` lines
334-345): load a block — set mode/position/range, clear the buffer,
reposition the compressed source and construct a fresh per-block
decompressor (modelled: `rem := C b`, count incremented). -/
def initDecompressor (C : XZBlock → List Nat) (st : SeekSt) (b : XZBlock) : SeekSt :=
  { mode := .read, pos := b.uncompOff, blockOffset := b.uncompOff,
    blockEndsAt := b.uncompOff + b.uncompSize, buffer := [],
    rem := C b, decompCount := st.decompCount + 1 }

/-- `_SeekableXZFile._move_to_block` (lines 347-356). -/
def moveToBlock (idx : List XZBlock) (C : XZBlock → List Nat) (st : SeekSt)
    (offset : Nat) : SeekSt × Bool :=
  match indexFind idx offset with
  | none => ({ st with pos := indexTotal idx, mode := .readEof }, false)
  | some b => (initDecompressor C st b, true)

/-- One iteration of the `while True` loop of `_SeekableXZFile._fill_buffer`
(lines 414-441), over the modelled block decompressor: a non-empty buffer
returns `True`; a finished block moves to the block containing the current
position (continuing the loop) or reports EOF; otherwise the decompressor
yields the next chunk (of at most `csz` bytes) of the block. -/
def sFillIter (idx : List XZBlock) (C : XZBlock → List Nat) (csz : Nat)
    (st : SeekSt) : (SeekSt × Bool) ⊕ SeekSt :=
  if st.buffer ≠ [] then .inl (st, true)
  else if st.rem = [] then
    match moveToBlock idx C st st.pos with
    | (st2, true) => .inr st2
    | (st2, false) => .inl (st2, false)
  else .inl ({ st with buffer := st.rem.take csz, rem := st.rem.drop csz }, true)

/-- `_SeekableXZFile._fill_buffer`, iterating `sFillIter`. -/
def sFillBuffer (idx : List XZBlock) (C : XZBlock → List Nat) (csz : Nat) :
    Nat → SeekSt → Except Err (SeekSt × Bool)
  | 0, _ => .error .fuel
  | n + 1, st =>
    match sFillIter idx C csz st with
    | .inl r => .ok r
    | .inr st2 => sFillBuffer idx C csz n st2

/-- `_SeekableXZFile._read_block` (lines 457-471); the `return_data=False`
caller simply ignores the returned bytes. -/
def sReadBlock (idx : List XZBlock) (C : XZBlock → List Nat) (csz : Nat) :
    Nat → SeekSt → Nat → Except Err (SeekSt × List Nat)
  | 0, _, _ => .error .fuel
  | fuel + 1, st, n =>
    if n = 0 then .ok (st, [])
    else
      match sFillBuffer idx C csz (fuel + 1) st with
      | .error e => .error e
      | .ok (st2, false) => .ok (st2, [])
      | .ok (st2, true) =>
        let data := if n < st2.buffer.length then st2.buffer.take n else st2.buffer
        let buf2 := if n < st2.buffer.length then st2.buffer.drop n else []
        match sReadBlock idx C csz fuel
            { st2 with buffer := buf2, pos := st2.pos + data.length } (n - data.length) with
        | .error e => .error e
        | .ok (st3, rest) => .ok (st3, data ++ rest)

/-- `_SeekableXZFile._read_all` (lines 445-453). -/
def sReadAll (idx : List XZBlock) (C : XZBlock → List Nat) (csz : Nat) :
    Nat → SeekSt → Except Err (SeekSt × List Nat)
  | 0, _ => .error .fuel
  | fuel + 1, st =>
    match sFillBuffer idx C csz (fuel + 1) st with
    | .error e => .error e
    | .ok (st2, false) => .ok (st2, [])
    | .ok (st2, true) =>
      match sReadAll idx C csz fuel
          { st2 with buffer := [], pos := st2.pos + st2.buffer.length } with
      | .error e => .error e
      | .ok (st3, rest) => .ok (st3, st2.buffer ++ rest)

/-- `_SeekableXZFile.read` (lines 369-385). -/
def sRead (idx : List XZBlock) (C : XZBlock → List Nat) (csz fuel : Nat)
    (st : SeekSt) (size : Int) : Except Err (SeekSt × List Nat) :=
  if st.mode = .closed then .error .ioError
  else if st.mode = .readEof ∨ size = 0 then .ok (st, [])
  else if size < 0 then sReadAll idx C csz fuel st
  else sReadBlock idx C csz fuel st size.toNat

/-- `_SeekableXZFile.seek` (lines 473-519): recompute the target as an
absolute position, clamp below at 0, switch blocks unless
`self._pos <= offset < self._block_ends_at`, then decode-and-discard
forward; returns the new position. -/
def sSeek (idx : List XZBlock) (C : XZBlock → List Nat) (csz fuel : Nat)
    (st : SeekSt) (offset : Int) (whence : Nat) : Except Err (SeekSt × Nat) :=
  if st.mode = .closed then .error .ioError
  else
    match (match whence with
      | 0 => some offset
      | 1 => some ((st.pos : Int) + offset)
      | 2 => some ((indexTotal idx : Int) + offset)
      | _ => none) with
    | none => .error .ioError
    | some off0 =>
      let off : Nat := (max off0 0).toNat
      let st1 := if st.pos ≤ off ∧ off < st.blockEndsAt then st
                 else (moveToBlock idx C st off).1
      if st1.mode ≠ .readEof then
        match sReadBlock idx C csz fuel st1 (off - st1.pos) with
        | .error e => .error e
        | .ok (st2, _) => .ok (st2, st2.pos)
      else .ok (st1, st1.pos)

/-- `_SeekableXZFile.__init__`'s final step (lines 330-332): record the total
size and load the block containing offset 0. -/
def sOpen (idx : List XZBlock) (C : XZBlock → List Nat) : SeekSt :=
  (moveToBlock idx C
    { mode := .closed, pos := 0, blockOffset := 0, blockEndsAt := 0,
      buffer := [], rem := [], decompCount := 0 } 0).1

/-- Contiguity of block ranges starting at offset `o` (spec section 3,
"Block" invariant). -/
def chainFrom : Nat → List XZBlock → Prop
  | _, [] => True
  | o, b :: r => b.uncompOff = o ∧ chainFrom (o + b.uncompSize) r

/-- A well-formed index with matching block contents: contiguous ranges
from offset 0, and each block decodes to exactly its declared uncompressed
size. -/
def ValidIndex (idx : List XZBlock) (C : XZBlock → List Nat) : Prop :=
  chainFrom 0 idx ∧ ∀ b ∈ idx, (C b).length = b.uncompSize

/-- The whole uncompressed content of the container. -/
def fullContent (idx : List XZBlock) (C : XZBlock → List Nat) : List Nat :=
  (idx.map C).flatten

/-- Reader invariant: either at EOF with the position at the total size, or
a block is loaded, the position lies in its range, and `buffer ++ rem` is
exactly the part of the block's content after the position. -/
def SInv (idx : List XZBlock) (C : XZBlock → List Nat) (st : SeekSt) : Prop :=
  (st.mode = .readEof ∧ st.pos = indexTotal idx ∧ st.blockEndsAt ≤ indexTotal idx) ∨
  (st.mode = .read ∧ ∃ pre b post, idx = pre ++ b :: post ∧
    st.blockOffset = b.uncompOff ∧
    st.blockEndsAt = b.uncompOff + b.uncompSize ∧
    b.uncompOff ≤ st.pos ∧ st.pos ≤ st.blockEndsAt ∧
    st.buffer ++ st.rem = (C b).drop (st.pos - b.uncompOff))

/-! ## Index construction at open time (`_SeekableXZFile.__init__`)

The backward stream-parsing loop (`lzmaffi/__init__.py` lines 294-329) is
embedded from the source.  The primitives it calls (`decode_stream_footer`,
`decode_stream_header`, `decode_index`, `StreamFlags.matches`,
`STREAM_HEADER_SIZE`) live in lzmaffi's `_lzmamodule2`, which is not part of
this repository snapshot; they are kept abstract as parameters, with
`StreamFlags.matches` modelled from the spec. -/

/-- Modelled from the spec (section 3, "Stream header/footer"): the decoded
stream flags — check kind, reserved fields, and (footer only) the size of the
index field used to walk backwards. -/
structure StreamFlags where
  check : Nat
  reservedFlags : Nat
  backwardSize : Nat
deriving DecidableEq, Repr

/-- Modelled from the spec: `stream_flags.matches(other)` — header
`StreamFlags` must structurally equal footer `StreamFlags` (same check kind,
same reserved fields). -/
def StreamFlags.matches (a b : StreamFlags) : Bool :=
  a.check == b.check && a.reservedFlags == b.reservedFlags

/-- Modelled from the spec (section 3, "Index"): the decoded index of one
stream — the total compressed size of the stream's blocks (used to walk
backwards) and its block records. -/
structure PIndex where
  blocksSize : Nat
  records : List XZBlock
deriving DecidableEq, Repr

/-- Modelled from the spec: `new_index.append(index)` merges a later stream's
index behind the current one. -/
def PIndex.append (a b : PIndex) : PIndex :=
  { blocksSize := a.blocksSize, records := a.records ++ b.records }

/-- The `_lzmamodule2` primitives the open-time loop calls, kept abstract:
`STREAM_HEADER_SIZE` and the three decoders (`none` models a decode error). -/
structure ParseEnv where
  shs : Nat
  decode_stream_footer : List Nat → Option StreamFlags
  decode_stream_header : List Nat → Option StreamFlags
  decode_index : List Nat → Nat → Option PIndex

/-- `_peek(fp, n)` (lines 281-286) at absolute position `p`: read `n` bytes
and seek back; `none` models the `False` return on a short read. -/
def peekAt (fp : List Nat) (p n : Nat) : Option (List Nat) :=
  if p + n ≤ fp.length then some ((fp.drop p).take n) else none

/-- The stream-padding scan (lines 303-306): step back 4 bytes at a time
while the word there is `b'\x00\x00\x00\x00'`, counting the padding.
Stepping below position 0 is the I/O error a negative seek raises. -/
def scanPadding (fp : List Nat) : Nat → Nat → Except Err (Nat × Nat)
  | 0, _ => .error .fuel
  | fuel + 1, p =>
    if peekAt fp p 4 = some ([0, 0, 0, 0] : List Nat) then
      if 4 ≤ p then
        match scanPadding fp fuel (p - 4) with
        | .error e => .error e
        | .ok (k, q) => .ok (k + 4, q)
      else .error .ioError
    else .ok (0, p)

/-- One stream of the backward parse (lines 296-319), up to and including
decoding both flag records, with the cursor arithmetic of the source's
relative seeks made explicit; a decoder returning `none` (or a seek before
position 0) fails.  Returns footer flags, header flags, the decoded index
and the cursor at the stream's start. -/
def parseStreamPre (env : ParseEnv) (fp : List Nat) (t : Nat) :
    Except Err (StreamFlags × StreamFlags × PIndex × Nat) :=
  if t < 2 * env.shs then .error .fileTooSmall
  else if t < 4 then .error .ioError
  else
    match scanPadding fp (t + 1) (t - 4) with
    | .error e => .error e
    | .ok (padding, p) =>
      if p + 4 < env.shs then .error .ioError
      else
        let t2 := p + 4 - env.shs
        match peekAt fp t2 env.shs with
        | none => .error .corrupt
        | some chunkF =>
          match env.decode_stream_footer chunkF with
          | none => .error .corrupt
          | some sf =>
            if t2 < sf.backwardSize then .error .ioError
            else
              let t3 := t2 - sf.backwardSize
              match peekAt fp t3 sf.backwardSize with
              | none => .error .corrupt
              | some chunkI =>
                match env.decode_index chunkI padding with
                | none => .error .corrupt
                | some ni =>
                  if t3 < ni.blocksSize + env.shs then .error .ioError
                  else
                    let t5 := t3 - ni.blocksSize - env.shs
                    match peekAt fp t5 env.shs with
                    | none => .error .corrupt
                    | some chunkH =>
                      match env.decode_stream_header chunkH with
                      | none => .error .corrupt
                      | some sf2 => .ok (sf, sf2, ni, t5)

/-- One stream of the backward parse, including the invariant check of lines
319-320: `if not stream_flags.matches(stream_flags2): raise LZMAError("header
and footer don't match")`. -/
def parseStream (env : ParseEnv) (fp : List Nat) (t : Nat) :
    Except Err (StreamFlags × PIndex × Nat) :=
  match parseStreamPre env fp t with
  | .error e => .error e
  | .ok (sf, sf2, ni, t5) =>
    if sf.matches sf2 then .ok (sf, ni, t5) else .error .headerFooterMismatch

/-- The `while fp.tell() > 0` loop of `__init__` (lines 297-327), with the
`index is None` check of lines 328-329. -/
def parseLoop (env : ParseEnv) (fp : List Nat) :
    Nat → Nat → Option PIndex → List Nat → Except Err (PIndex × List Nat)
  | 0, _, _, _ => .error .fuel
  | fuel + 1, t, acc, checks =>
    if 0 < t then
      match parseStream env fp t with
      | .error e => .error e
      | .ok (sf, ni, t5) =>
        let ni2 := match acc with
          | none => ni
          | some ix => PIndex.append ni ix
        parseLoop env fp fuel t5 (some ni2) (checks ++ [sf.check])
    else
      match acc with
      | none => .error .fileEmpty
      | some ix => .ok (ix, checks)

/-- Index construction at open time (`__init__` lines 293-329): the file is
scanned backwards from its end, one stream at a time. -/
def seekableInit (env : ParseEnv) (fp : List Nat) (fuel : Nat) :
    Except Err (PIndex × List Nat) :=
  parseLoop env fp fuel fp.length none []

/-! ## Theorems -/

/-! ## Driver invariants -/

theorem decIter_out {σ : Type} (E : Engine σ) (s : DecRunSt σ) (b : Bool)
    (s' : DecRunSt σ) (base : List Nat)
    (h : decIter E s = .ok (b, s'))
    (hb : s.done.flatten ++ s.cur = base ++ s.trace.flatten) :
    s'.done.flatten ++ s'.cur = base ++ s'.trace.flatten := by
  simp only [decIter] at h
  split at h
  · exact absurd h (by simp)
  · split at h
    · simp only [Except.ok.injEq, Prod.mk.injEq] at h
      obtain ⟨rfl, rfl⟩ := h
      simp only [List.flatten_append, List.flatten_cons, List.flatten_nil, List.append_nil]
      rw [← List.append_assoc, ← List.append_assoc, hb]
    · split at h
      · simp only [Except.ok.injEq, Prod.mk.injEq] at h
        obtain ⟨rfl, rfl⟩ := h
        simp only [List.flatten_append, List.flatten_cons, List.flatten_nil, List.append_nil]
        rw [← List.append_assoc, ← List.append_assoc, hb]
      · split at h
        · simp only [Except.ok.injEq, Prod.mk.injEq] at h
          obtain ⟨rfl, rfl⟩ := h
          simp only [List.flatten_append, List.flatten_cons, List.flatten_nil, List.append_nil]
          rw [← List.append_assoc, ← List.append_assoc, hb]
        · simp only [Except.ok.injEq, Prod.mk.injEq] at h
          obtain ⟨rfl, rfl⟩ := h
          simp only [List.flatten_append, List.flatten_cons, List.flatten_nil, List.append_nil]
          rw [← List.append_assoc, ← List.append_assoc, hb]

theorem decLoop_out {σ : Type} (E : Engine σ) :
    ∀ (fuel : Nat) (s r : DecRunSt σ) (base : List Nat),
    decLoop E fuel s = .ok r →
    s.done.flatten ++ s.cur = base ++ s.trace.flatten →
    r.done.flatten ++ r.cur = base ++ r.trace.flatten := by
  intro fuel
  induction fuel with
  | zero => intro s r base h _; exact absurd h (by simp [decLoop])
  | succ n ih =>
    intro s r base h hb
    rw [decLoop] at h
    cases hit : decIter E s with
    | error e => rw [hit] at h; exact absurd h (by simp)
    | ok p =>
      rw [hit] at h
      obtain ⟨b, s2⟩ := p
      cases b with
      | true =>
        simp only [Except.ok.injEq] at h
        subst h
        exact decIter_out E s true s2 base hit hb
      | false => exact ih s2 r base h (decIter_out E s false s2 base hit hb)

theorem compIter_out {σ : Type} (E : Engine σ) (action : LzAction) (s : CompRunSt σ)
    (b : Bool) (s' : CompRunSt σ) (base : List Nat)
    (h : compIter E action s = .ok (b, s'))
    (hb : s.done.flatten ++ s.cur = base ++ s.trace.flatten) :
    s'.done.flatten ++ s'.cur = base ++ s'.trace.flatten := by
  simp only [compIter] at h
  split at h
  · exact absurd h (by simp)
  · split at h
    · simp only [Except.ok.injEq, Prod.mk.injEq] at h
      obtain ⟨rfl, rfl⟩ := h
      simp only [List.flatten_append, List.flatten_cons, List.flatten_nil, List.append_nil]
      rw [← List.append_assoc, ← List.append_assoc, hb]
    · split at h
      · simp only [Except.ok.injEq, Prod.mk.injEq] at h
        obtain ⟨rfl, rfl⟩ := h
        simp only [List.flatten_append, List.flatten_cons, List.flatten_nil, List.append_nil]
        rw [← List.append_assoc, ← List.append_assoc, hb]
      · simp only [Except.ok.injEq, Prod.mk.injEq] at h
        obtain ⟨rfl, rfl⟩ := h
        simp only [List.flatten_append, List.flatten_cons, List.flatten_nil, List.append_nil]
        rw [← List.append_assoc, ← List.append_assoc, hb]

theorem compLoop_out {σ : Type} (E : Engine σ) (action : LzAction) :
    ∀ (fuel : Nat) (s r : CompRunSt σ) (base : List Nat),
    compLoop E action fuel s = .ok r →
    s.done.flatten ++ s.cur = base ++ s.trace.flatten →
    r.done.flatten ++ r.cur = base ++ r.trace.flatten := by
  intro fuel
  induction fuel with
  | zero => intro s r base h _; exact absurd h (by simp [compLoop])
  | succ n ih =>
    intro s r base h hb
    rw [compLoop] at h
    cases hit : compIter E action s with
    | error e => rw [hit] at h; exact absurd h (by simp)
    | ok p =>
      rw [hit] at h
      obtain ⟨b, s2⟩ := p
      cases b with
      | true =>
        simp only [Except.ok.injEq] at h
        subst h
        exact compIter_out E action s true s2 base hit hb
      | false => exact ih s2 r base h (compIter_out E action s false s2 base hit hb)

/-- One iteration of `_decompress` keeps `unused_data` empty unless the
engine reported stream end with input left over (in which case `eof` is set
in the same iteration). -/
theorem decIter_unused {σ : Type} (E : Engine σ) (s : DecRunSt σ) (b : Bool)
    (s' : DecRunSt σ)
    (h : decIter E s = .ok (b, s'))
    (hu : s.dec.unused_data = []) (he : s.dec.eof = false) :
    (b = false → s'.dec.unused_data = [] ∧ s'.dec.eof = false) ∧
    (s'.dec.eof = false → s'.dec.unused_data = []) := by
  simp only [decIter] at h
  split at h
  · exact absurd h (by simp)
  · split at h
    · simp only [Except.ok.injEq, Prod.mk.injEq] at h
      obtain ⟨rfl, rfl⟩ := h
      simp
    · split at h
      · simp only [Except.ok.injEq, Prod.mk.injEq] at h
        obtain ⟨rfl, rfl⟩ := h
        simp [hu, he]
      · split at h
        · simp only [Except.ok.injEq, Prod.mk.injEq] at h
          obtain ⟨rfl, rfl⟩ := h
          simp [hu, he]
        · simp only [Except.ok.injEq, Prod.mk.injEq] at h
          obtain ⟨rfl, rfl⟩ := h
          simp [hu, he]

/-- Through the whole `_decompress` loop: starting with empty `unused_data`
and `eof` unset, `unused_data` can only become non-empty if `eof` became set. -/
theorem decLoop_unused {σ : Type} (E : Engine σ) :
    ∀ (fuel : Nat) (s r : DecRunSt σ),
    decLoop E fuel s = .ok r →
    s.dec.unused_data = [] → s.dec.eof = false →
    (r.dec.eof = false → r.dec.unused_data = []) := by
  intro fuel
  induction fuel with
  | zero => intro s r h _ _; exact absurd h (by simp [decLoop])
  | succ n ih =>
    intro s r h hu he
    rw [decLoop] at h
    cases hit : decIter E s with
    | error e => rw [hit] at h; exact absurd h (by simp)
    | ok p =>
      rw [hit] at h
      obtain ⟨b, s2⟩ := p
      cases b with
      | true =>
        simp only [Except.ok.injEq] at h
        subst h
        exact (decIter_unused E s true s2 hit hu he).2
      | false =>
        obtain ⟨hu2, he2⟩ := (decIter_unused E s false s2 hit hu he).1 rfl
        exact ih s2 r h hu2 he2

/-- Projection helper for the model decoder engine. -/
theorem toyDec_step_eq : toyDec.step = toyDecStep := rfl

/-- Projection helper for the model encoder engine. -/
theorem toyEnc_step_eq : toyEnc.step = toyEncStep := rfl

/-- Initial state of the model decoder engine. -/
theorem toyDec_start_eq : toyDec.start = false := rfl

/-- Initial state of the model encoder engine. -/
theorem toyEnc_start_eq : toyEnc.start = false := rfl

/-- The `_decompress` loop driven by the model decoder computes `toyRun`:
from a decompressor state that is not at eof and has no unused data, the
loop output extends the segments by `toyRun`'s output and the final
decompressor fields are `toyRun`'s verdict.  The fuel bound counts one
engine call per consumed byte plus at most one growth step in between. -/
theorem decLoop_toy_ok :
    ∀ (fuel : Nat) (inp : List Nat) (lz : Bool) (chk : Nat)
      (dn : List (List Nat)) (cr : List Nat) (cs : Nat) (tr : List (List Nat))
      (q : ToyRunRes),
    toyRun lz inp = some q →
    2 * inp.length + 2 + (if cs - cr.length = 0 then 1 else 0) ≤ fuel →
    ∃ d c z t,
      decLoop toyDec fuel ⟨⟨chk, [], false, lz⟩, inp, dn, cr, cs, tr⟩ =
        .ok ⟨⟨chk, q.rest, q.eof, q.st⟩, q.rest, d, c, z, t⟩ ∧
      d.flatten ++ c = dn.flatten ++ cr ++ q.out := by
  intro fuel
  induction fuel with
  | zero =>
    intro inp lz chk dn cr cs tr q _ hb
    split at hb <;> omega
  | succ n ih =>
    intro inp lz chk dn cr cs tr q hq hb
    rw [decLoop]
    cases lz with
    | true =>
      cases inp with
      | nil =>
        simp only [toyRun, Option.some.injEq] at hq
        subst hq
        have hit : decIter toyDec ⟨⟨chk, [], false, true⟩, [], dn, cr, cs, tr⟩ =
            .ok (true, ⟨⟨chk, [], false, true⟩, [], dn, cr, cs, tr ++ [[]]⟩) := by
          simp [decIter, toyDec_step_eq, toyDecStep]
        refine ⟨dn, cr, cs, tr ++ [[]], ?_, by simp⟩
        rw [hit]
      | cons b r =>
        rcases Nat.eq_zero_or_pos (cs - cr.length) with hz | hz
        · -- avail_out is 0: no progress, grow a 512-byte segment
          have hit : decIter toyDec ⟨⟨chk, [], false, true⟩, b :: r, dn, cr, cs, tr⟩ =
              .ok (false, ⟨⟨chk, [], false, true⟩, b :: r, dn ++ [cr], [], 512, tr ++ [[]]⟩) := by
            simp [decIter, toyDec_step_eq, toyDecStep, hz]
          have hb2 : 2 * (b :: r).length + 2 +
              (if 512 - ([] : List Nat).length = 0 then 1 else 0) ≤ n := by
            rw [if_pos hz] at hb
            rw [if_neg (by simp : ¬((512 : Nat) - ([] : List Nat).length = 0))]
            omega
          obtain ⟨d, c, z, t, heq, hflat⟩ :=
            ih (b :: r) true chk (dn ++ [cr]) [] 512 (tr ++ [[]]) q hq hb2
          refine ⟨d, c, z, t, ?_, ?_⟩
          · rw [hit]; exact heq
          · simp [hflat]
        · -- emit the pending literal
          have hz' : ¬ cs - cr.length = 0 := Nat.pos_iff_ne_zero.mp hz
          cases hq' : toyRun false r with
          | none => rw [toyRun, hq'] at hq; simp at hq
          | some q' =>
            rw [toyRun, hq'] at hq
            simp only [Option.map_some', Option.some.injEq] at hq
            subst hq
            cases r with
            | nil =>
              simp only [toyRun, Option.some.injEq] at hq'
              subst hq'
              have hit : decIter toyDec ⟨⟨chk, [], false, true⟩, [b], dn, cr, cs, tr⟩ =
                  .ok (true, ⟨⟨chk, [], false, false⟩, [], dn, cr ++ [b], cs, tr ++ [[b]]⟩) := by
                simp [decIter, toyDec_step_eq, toyDecStep, hz']
              refine ⟨dn, cr ++ [b], cs, tr ++ [[b]], ?_, by simp⟩
              rw [hit]
            | cons c0 r0 =>
              rcases Nat.eq_zero_or_pos (cs - (cr ++ [b]).length) with h2 | h2
              · have h2n : cs - (cr.length + 1) = 0 := by simpa using h2
                have hit : decIter toyDec
                    ⟨⟨chk, [], false, true⟩, b :: c0 :: r0, dn, cr, cs, tr⟩ =
                    .ok (false, ⟨⟨chk, [], false, false⟩, c0 :: r0,
                      dn ++ [cr ++ [b]], [], 512, tr ++ [[b]]⟩) := by
                  simp [decIter, toyDec_step_eq, toyDecStep, hz', h2n]
                have hb2 : 2 * (c0 :: r0).length + 2 +
                    (if 512 - ([] : List Nat).length = 0 then 1 else 0) ≤ n := by
                  rw [if_neg hz'] at hb
                  rw [if_neg (by simp : ¬((512 : Nat) - ([] : List Nat).length = 0))]
                  simp only [List.length_cons] at hb ⊢
                  omega
                obtain ⟨d, c, z, t, heq, hflat⟩ :=
                  ih (c0 :: r0) false chk (dn ++ [cr ++ [b]]) [] 512 (tr ++ [[b]]) q' hq' hb2
                refine ⟨d, c, z, t, ?_, ?_⟩
                · rw [hit]; exact heq
                · simp [hflat]
              · have h2' : ¬ cs - (cr ++ [b]).length = 0 := Nat.pos_iff_ne_zero.mp h2
                have h2n : ¬ cs - (cr.length + 1) = 0 := by simpa using h2'
                have hit : decIter toyDec
                    ⟨⟨chk, [], false, true⟩, b :: c0 :: r0, dn, cr, cs, tr⟩ =
                    .ok (false, ⟨⟨chk, [], false, false⟩, c0 :: r0,
                      dn, cr ++ [b], cs, tr ++ [[b]]⟩) := by
                  simp [decIter, toyDec_step_eq, toyDecStep, hz', h2n]
                have hb2 : 2 * (c0 :: r0).length + 2 +
                    (if cs - (cr ++ [b]).length = 0 then 1 else 0) ≤ n := by
                  rw [if_neg hz'] at hb
                  rw [if_neg h2']
                  simp only [List.length_cons] at hb ⊢
                  omega
                obtain ⟨d, c, z, t, heq, hflat⟩ :=
                  ih (c0 :: r0) false chk dn (cr ++ [b]) cs (tr ++ [[b]]) q' hq' hb2
                refine ⟨d, c, z, t, ?_, ?_⟩
                · rw [hit]; exact heq
                · simp [hflat]
    | false =>
      cases inp with
      | nil =>
        simp only [toyRun, Option.some.injEq] at hq
        subst hq
        have hit : decIter toyDec ⟨⟨chk, [], false, false⟩, [], dn, cr, cs, tr⟩ =
            .ok (true, ⟨⟨chk, [], false, false⟩, [], dn, cr, cs, tr ++ [[]]⟩) := by
          simp [decIter, toyDec_step_eq, toyDecStep]
        refine ⟨dn, cr, cs, tr ++ [[]], ?_, by simp⟩
        rw [hit]
      | cons b r =>
        rcases b with _ | _ | k
        · -- end-of-stream marker
          simp only [toyRun, Option.some.injEq] at hq
          subst hq
          have hur : (if r = ([] : List Nat) then ([] : List Nat) else r) = r := by
            cases r <;> simp
          have hit : decIter toyDec ⟨⟨chk, [], false, false⟩, 0 :: r, dn, cr, cs, tr⟩ =
              .ok (true, ⟨⟨chk, r, true, false⟩, r, dn, cr, cs, tr ++ [[]]⟩) := by
            simp [decIter, toyDec_step_eq, toyDecStep, hur]
          refine ⟨dn, cr, cs, tr ++ [[]], ?_, by simp⟩
          rw [hit]
        · -- literal tag
          rw [show toyRun false (1 :: r) = toyRun true r from rfl] at hq
          cases r with
          | nil =>
            simp only [toyRun, Option.some.injEq] at hq
            subst hq
            have hit : decIter toyDec ⟨⟨chk, [], false, false⟩, [1], dn, cr, cs, tr⟩ =
                .ok (true, ⟨⟨chk, [], false, true⟩, [], dn, cr, cs, tr ++ [[]]⟩) := by
              simp [decIter, toyDec_step_eq, toyDecStep]
            refine ⟨dn, cr, cs, tr ++ [[]], ?_, by simp⟩
            rw [hit]
          | cons c0 r0 =>
            rcases Nat.eq_zero_or_pos (cs - cr.length) with hz | hz
            · have hit : decIter toyDec
                  ⟨⟨chk, [], false, false⟩, 1 :: c0 :: r0, dn, cr, cs, tr⟩ =
                  .ok (false, ⟨⟨chk, [], false, true⟩, c0 :: r0,
                    dn ++ [cr], [], 512, tr ++ [[]]⟩) := by
                simp [decIter, toyDec_step_eq, toyDecStep, hz]
              have hb2 : 2 * (c0 :: r0).length + 2 +
                  (if 512 - ([] : List Nat).length = 0 then 1 else 0) ≤ n := by
                rw [if_pos hz] at hb
                rw [if_neg (by simp : ¬((512 : Nat) - ([] : List Nat).length = 0))]
                simp only [List.length_cons] at hb ⊢
                omega
              obtain ⟨d, c, z, t, heq, hflat⟩ :=
                ih (c0 :: r0) true chk (dn ++ [cr]) [] 512 (tr ++ [[]]) q hq hb2
              refine ⟨d, c, z, t, ?_, ?_⟩
              · rw [hit]; exact heq
              · simp [hflat]
            · have hz' : ¬ cs - cr.length = 0 := Nat.pos_iff_ne_zero.mp hz
              have hit : decIter toyDec
                  ⟨⟨chk, [], false, false⟩, 1 :: c0 :: r0, dn, cr, cs, tr⟩ =
                  .ok (false, ⟨⟨chk, [], false, true⟩, c0 :: r0,
                    dn, cr, cs, tr ++ [[]]⟩) := by
                simp [decIter, toyDec_step_eq, toyDecStep, hz']
              have hb2 : 2 * (c0 :: r0).length + 2 +
                  (if cs - cr.length = 0 then 1 else 0) ≤ n := by
                rw [if_neg hz'] at hb
                rw [if_neg hz']
                simp only [List.length_cons] at hb ⊢
                omega
              obtain ⟨d, c, z, t, heq, hflat⟩ :=
                ih (c0 :: r0) true chk dn cr cs (tr ++ [[]]) q hq hb2
              refine ⟨d, c, z, t, ?_, ?_⟩
              · rw [hit]; exact heq
              · simp [hflat]
        · -- corrupt tag byte: contradicts `toyRun _ = some _`
          rw [show toyRun false ((k + 2) :: r) = none from rfl] at hq
          exact absurd hq (by simp)

/-- `_decompress` on the model decoder, starting from a not-yet-finished
decompressor with empty `unused_data`, returns exactly `toyRun`'s verdict. -/
theorem decompressBody_toy (data : List Nat) (chk : Nat) (lz : Bool)
    (q : ToyRunRes) (fuel : Nat)
    (hq : toyRun lz data = some q) (hf : 2 * data.length + 2 ≤ fuel) :
    ∃ t, decompressBody toyDec fuel ⟨chk, [], false, lz⟩ data =
      .ok ⟨q.out, ⟨chk, q.rest, q.eof, q.st⟩, t, q.rest⟩ := by
  obtain ⟨d, c, z, t, heq, hflat⟩ :=
    decLoop_toy_ok fuel data lz chk [] [] 8192 [] q hq
      (by rw [if_neg (by simp : ¬((8192 : Nat) - ([] : List Nat).length = 0))]; omega)
  refine ⟨t, ?_⟩
  rw [decompressBody, heq]
  simp at hflat
  simp [Except.map, hflat]

/-- The `decompress` method on the model decoder. -/
theorem decompress_toy (data : List Nat) (chk : Nat) (lz : Bool)
    (q : ToyRunRes) (fuel : Nat)
    (hq : toyRun lz data = some q) (hf : 2 * data.length + 2 ≤ fuel) :
    LZMADecompressor.decompress toyDec fuel ⟨chk, [], false, lz⟩ data =
      .ok (q.out, ⟨chk, q.rest, q.eof, q.st⟩) := by
  obtain ⟨t, h⟩ := decompressBody_toy data chk lz q fuel hq hf
  simp [LZMADecompressor.decompress, h, Except.map]

/-- A complete model-codec stream followed by arbitrary bytes decodes to the
original data, reports the end marker, and leaves the trailing bytes. -/
theorem toyRun_stream : ∀ (a g : List Nat),
    toyRun false (encodeBytes a ++ 0 :: g) = some ⟨a, true, g, false⟩ := by
  intro a
  induction a with
  | nil => intro g; rfl
  | cons b r ih =>
    intro g
    show toyRun true (b :: (encodeBytes r ++ 0 :: g)) = _
    rw [toyRun, ih g]
    rfl

/-- Chunk composition for the model decoder: a chunk that was consumed
completely without reaching the end marker continues into the next chunk. -/
theorem toyRun_append : ∀ (u : List Nat) (s : Bool) (v : List Nat) (q : ToyRunRes),
    toyRun s u = some q → q.eof = false → q.rest = [] →
    toyRun s (u ++ v) =
      (toyRun q.st v).map (fun p => ⟨q.out ++ p.out, p.eof, p.rest, p.st⟩) := by
  intro u
  induction u with
  | nil =>
    intro s v q hq he hr
    cases s <;> (simp only [toyRun, Option.some.injEq] at hq; subst hq) <;>
      (simp only [List.nil_append]; cases toyRun _ v <;> simp)
  | cons b r ih =>
    intro s v q hq he hr
    cases s with
    | true =>
      rw [toyRun] at hq
      cases hq' : toyRun false r with
      | none => rw [hq'] at hq; simp at hq
      | some q' =>
        rw [hq'] at hq
        simp only [Option.map_some', Option.some.injEq] at hq
        subst hq
        simp only at he hr
        have := ih false v q' hq' he hr
        show (toyRun false (r ++ v)).map _ = _
        rw [this]
        cases toyRun q'.st v <;> simp
    | false =>
      rcases b with _ | _ | k
      · rw [toyRun] at hq
        simp only [Option.some.injEq] at hq
        subst hq
        simp at he
      · rw [show toyRun false (1 :: r) = toyRun true r from rfl] at hq
        show toyRun true (r ++ v) = _
        exact ih true v q hq he hr
      · rw [show toyRun false ((k + 2) :: r) = none from rfl] at hq
        exact absurd hq (by simp)

/-- The `_compress` loop with `LZMA_RUN` driven by the model encoder emits
exactly the encoding of the input.  The parity hypothesis reflects that the
driver's buffer sizes (8192 and 512) are even while the encoder emits
2-byte pairs, so `avail_out` can only vanish at a pair boundary. -/
theorem compLoop_toy_run :
    ∀ (fuel : Nat) (inp : List Nat) (dn : List (List Nat)) (cr : List Nat)
      (cs : Nat) (tr : List (List Nat)),
    (cs - cr.length) % 2 = 0 →
    2 * inp.length + 2 + (if cs - cr.length = 0 then 1 else 0) ≤ fuel →
    ∃ d c z t,
      compLoop toyEnc .run fuel ⟨false, inp, dn, cr, cs, tr⟩ =
        .ok ⟨false, [], d, c, z, t⟩ ∧
      d.flatten ++ c = dn.flatten ++ cr ++ encodeBytes inp := by
  intro fuel
  induction fuel with
  | zero =>
    intro inp dn cr cs tr _ hb
    split at hb <;> omega
  | succ n ih =>
    intro inp dn cr cs tr hpar hb
    rw [compLoop]
    cases inp with
    | nil =>
      have hit : compIter toyEnc .run ⟨false, [], dn, cr, cs, tr⟩ =
          .ok (true, ⟨false, [], dn, cr, cs, tr ++ [[]]⟩) := by
        simp [compIter, toyEnc_step_eq, toyEncStep]
      refine ⟨dn, cr, cs, tr ++ [[]], ?_, by simp [encodeBytes]⟩
      rw [hit]
    | cons b r =>
      rcases Nat.eq_zero_or_pos (cs - cr.length) with hz | hz
      · -- avail_out is 0: grow a 512-byte segment
        have hit : compIter toyEnc .run ⟨false, b :: r, dn, cr, cs, tr⟩ =
            .ok (false, ⟨false, b :: r, dn ++ [cr], [], 512, tr ++ [[]]⟩) := by
          simp [compIter, toyEnc_step_eq, toyEncStep, hz]
        have hb2 : 2 * (b :: r).length + 2 +
            (if 512 - ([] : List Nat).length = 0 then 1 else 0) ≤ n := by
          rw [if_pos hz] at hb
          rw [if_neg (by simp : ¬((512 : Nat) - ([] : List Nat).length = 0))]
          omega
        obtain ⟨d, c, z, t, heq, hflat⟩ :=
          ih (b :: r) (dn ++ [cr]) [] 512 (tr ++ [[]]) (by norm_num) hb2
        refine ⟨d, c, z, t, ?_, ?_⟩
        · rw [hit]; exact heq
        · simp [hflat]
      · -- emit one encoded pair
        have hge : 2 ≤ cs - cr.length := by omega
        have hit : compIter toyEnc .run ⟨false, b :: r, dn, cr, cs, tr⟩ =
            (if r = [] then .ok (true, ⟨false, [], dn, cr ++ [1, b], cs, tr ++ [[1, b]]⟩)
             else if cs - (cr.length + 2) = 0 then
               .ok (false, ⟨false, r, dn ++ [cr ++ [1, b]], [], 512, tr ++ [[1, b]]⟩)
             else .ok (false, ⟨false, r, dn, cr ++ [1, b], cs, tr ++ [[1, b]]⟩)) := by
          cases r with
          | nil => simp [compIter, toyEnc_step_eq, toyEncStep, hge]
          | cons c0 r0 =>
            rcases Nat.eq_zero_or_pos (cs - (cr.length + 2)) with h2 | h2
            · simp [compIter, toyEnc_step_eq, toyEncStep, hge, h2]
            · have h2' : ¬ cs - (cr.length + 2) = 0 := Nat.pos_iff_ne_zero.mp h2
              simp [compIter, toyEnc_step_eq, toyEncStep, hge, h2']
        cases r with
        | nil =>
          rw [hit]
          simp only [if_pos rfl]
          refine ⟨dn, cr ++ [1, b], cs, tr ++ [[1, b]], rfl, by simp [encodeBytes]⟩
        | cons c0 r0 =>
          rcases Nat.eq_zero_or_pos (cs - (cr.length + 2)) with h2 | h2
          · rw [hit]
            simp only [if_neg (by simp : ¬(c0 :: r0 = [])), if_pos h2]
            have hb2 : 2 * (c0 :: r0).length + 2 +
                (if 512 - ([] : List Nat).length = 0 then 1 else 0) ≤ n := by
              rw [if_neg (Nat.pos_iff_ne_zero.mp hz)] at hb
              rw [if_neg (by simp : ¬((512 : Nat) - ([] : List Nat).length = 0))]
              simp only [List.length_cons] at hb ⊢
              omega
            obtain ⟨d, c, z, t, heq, hflat⟩ :=
              ih (c0 :: r0) (dn ++ [cr ++ [1, b]]) [] 512 (tr ++ [[1, b]])
                (by norm_num) hb2
            refine ⟨d, c, z, t, heq, ?_⟩
            rw [hflat]
            simp [encodeBytes]
          · have h2' : ¬ cs - (cr.length + 2) = 0 := Nat.pos_iff_ne_zero.mp h2
            rw [hit]
            simp only [if_neg (by simp : ¬(c0 :: r0 = [])), if_neg h2']
            have hpar2 : (cs - (cr ++ [1, b]).length) % 2 = 0 := by
              simp only [List.length_append, List.length_cons, List.length_nil]
              omega
            have hb2 : 2 * (c0 :: r0).length + 2 +
                (if cs - (cr ++ [1, b]).length = 0 then 1 else 0) ≤ n := by
              rw [if_neg (Nat.pos_iff_ne_zero.mp hz)] at hb
              rw [if_neg (by simpa using h2')]
              simp only [List.length_cons] at hb ⊢
              omega
            obtain ⟨d, c, z, t, heq, hflat⟩ :=
              ih (c0 :: r0) dn (cr ++ [1, b]) cs (tr ++ [[1, b]]) hpar2 hb2
            refine ⟨d, c, z, t, heq, ?_⟩
            rw [hflat]
            simp [encodeBytes]

/-- `_compress` with `LZMA_RUN` from a fresh call on the model encoder. -/
theorem compressBody_toy_run (inp : List Nat) (fuel : Nat)
    (hf : 2 * inp.length + 2 ≤ fuel) :
    ∃ t, compressBody toyEnc fuel false inp .run = .ok ⟨encodeBytes inp, false, t, []⟩ := by
  obtain ⟨d, c, z, t, heq, hflat⟩ :=
    compLoop_toy_run fuel inp [] [] 8192 [] (by norm_num)
      (by rw [if_neg (by simp : ¬((8192 : Nat) - ([] : List Nat).length = 0))]; omega)
  refine ⟨t, ?_⟩
  rw [compressBody, heq]
  simp at hflat
  simp [Except.map, hflat]

/-- `_compress` with `LZMA_FINISH` and empty input on the model encoder:
the end marker is written in the first iteration. -/
theorem compressBody_toy_finish (fuel : Nat) (h : 1 ≤ fuel) :
    compressBody toyEnc fuel false [] .finish = .ok ⟨[0], true, [[0]], []⟩ := by
  obtain ⟨f, rfl⟩ : ∃ f, fuel = f + 1 := ⟨fuel - 1, by omega⟩
  rw [compressBody, compLoop]
  have hit : compIter toyEnc .finish ⟨false, [], [], [], 8192, []⟩ =
      .ok (true, ⟨true, [], [], [0], 8192, [[0]]⟩) := by
    simp [compIter, toyEnc_step_eq, toyEncStep]
  rw [hit]
  rfl

/-- One-shot `compress` on the model encoder produces exactly the model
stream `encodeBytes b ++ [0]`. -/
theorem oneShotCompress_toy (b : List Nat) (fuel : Nat)
    (hf : 2 * b.length + 2 ≤ fuel) :
    oneShotCompress toyEnc fuel b = .ok (toyCompress b) := by
  obtain ⟨t, h1⟩ := compressBody_toy_run b fuel hf
  have h2 := compressBody_toy_finish fuel (by omega)
  rw [oneShotCompress]
  simp [LZMACompressor.mk, LZMACompressor.compress, LZMACompressor.flush,
    toyEnc_start_eq, h1, h2, Except.map, toyCompress, Bind.bind, Except.bind,
    Functor.map, pure, Except.pure]

/-- `LZMADecompressor.mk` on the model decoder, in explicit form. -/
theorem mk_toyDec_eq : LZMADecompressor.mk toyDec = ⟨CHECK_UNKNOWN, [], false, false⟩ := rfl

/-- A model stream is never the empty byte string. -/
theorem toyCompress_ne_nil (b : List Nat) : toyCompress b ≠ [] := by
  simp [toyCompress]

/-- One-shot `decompress` of a single model stream. -/
theorem oneShotDecompress_toy_one (b : List Nat) (dfuel ofuel : Nat)
    (hd : 2 * (toyCompress b).length + 2 ≤ dfuel) (ho : 1 ≤ ofuel) :
    oneShotDecompress toyDec dfuel ofuel (toyCompress b) = .ok b := by
  obtain ⟨m, rfl⟩ : ∃ m, ofuel = m + 1 := ⟨ofuel - 1, by omega⟩
  have hrun : toyRun false (toyCompress b) = some ⟨b, true, [], false⟩ := by
    rw [show toyCompress b = encodeBytes b ++ 0 :: [] from rfl]
    exact toyRun_stream b []
  have hdec := decompress_toy (toyCompress b) CHECK_UNKNOWN false
    ⟨b, true, [], false⟩ dfuel hrun hd
  rw [oneShotDecompress, oneShotDecompressLoop, mk_toyDec_eq, hdec]
  simp

/-- One-shot `decompress` of two concatenated model streams. -/
theorem oneShotDecompress_toy_two (a b : List Nat) (dfuel ofuel : Nat)
    (hd : 2 * (toyCompress a ++ toyCompress b).length + 2 ≤ dfuel)
    (ho : 2 ≤ ofuel) :
    oneShotDecompress toyDec dfuel ofuel (toyCompress a ++ toyCompress b) =
      .ok (a ++ b) := by
  obtain ⟨m, rfl⟩ : ∃ m, ofuel = m + 2 := ⟨ofuel - 2, by omega⟩
  have hrun1 : toyRun false (toyCompress a ++ toyCompress b) =
      some ⟨a, true, toyCompress b, false⟩ := by
    rw [show toyCompress a ++ toyCompress b = encodeBytes a ++ 0 :: toyCompress b by
      rw [toyCompress, List.append_assoc]; rfl]
    exact toyRun_stream a (toyCompress b)
  have hdec1 := decompress_toy (toyCompress a ++ toyCompress b) CHECK_UNKNOWN false
    ⟨a, true, toyCompress b, false⟩ dfuel hrun1 hd
  have hrun2 : toyRun false (toyCompress b) = some ⟨b, true, [], false⟩ := by
    rw [show toyCompress b = encodeBytes b ++ 0 :: [] from rfl]
    exact toyRun_stream b []
  have hdec2 := decompress_toy (toyCompress b) CHECK_UNKNOWN false
    ⟨b, true, [], false⟩ dfuel hrun2 (by simp at hd ⊢; omega)
  rw [oneShotDecompress, oneShotDecompressLoop, mk_toyDec_eq, hdec1]
  simp only [if_neg (by simp : ¬(true = false)), if_neg (toyCompress_ne_nil b)]
  rw [oneShotDecompressLoop, mk_toyDec_eq, hdec2]
  simp

/-- A chunk that did not reach the end marker leaves no remainder. -/
theorem toyRun_rest : ∀ (d : List Nat) (s : Bool) (q : ToyRunRes),
    toyRun s d = some q → q.eof = false → q.rest = [] := by
  intro d
  induction d with
  | nil =>
    intro s q hq _
    cases s <;> (simp only [toyRun, Option.some.injEq] at hq; subst hq; rfl)
  | cons b r ih =>
    intro s q hq he
    cases s with
    | true =>
      rw [toyRun] at hq
      cases hq' : toyRun false r with
      | none => rw [hq'] at hq; simp at hq
      | some q' =>
        rw [hq'] at hq
        simp only [Option.map_some', Option.some.injEq] at hq
        subst hq
        simp only at he ⊢
        exact ih false q' hq' he
    | false =>
      rcases b with _ | _ | k
      · rw [toyRun] at hq
        simp only [Option.some.injEq] at hq
        subst hq
        simp at he
      · rw [show toyRun false (1 :: r) = toyRun true r from rfl] at hq
        exact ih true q hq he
      · rw [show toyRun false ((k + 2) :: r) = none from rfl] at hq
        exact absurd hq (by simp)

/-- A chunk that reached the end marker consumed at least one byte. -/
theorem toyRun_eof_rest_lt : ∀ (d : List Nat) (s : Bool) (q : ToyRunRes),
    toyRun s d = some q → q.eof = true → q.rest.length < d.length := by
  intro d
  induction d with
  | nil =>
    intro s q hq he
    cases s <;> (simp only [toyRun, Option.some.injEq] at hq; subst hq; simp at he)
  | cons b r ih =>
    intro s q hq he
    cases s with
    | true =>
      rw [toyRun] at hq
      cases hq' : toyRun false r with
      | none => rw [hq'] at hq; simp at hq
      | some q' =>
        rw [hq'] at hq
        simp only [Option.map_some', Option.some.injEq] at hq
        subst hq
        simp only at he ⊢
        exact Nat.lt_succ_of_lt (ih false q' hq' he)
    | false =>
      rcases b with _ | _ | k
      · rw [toyRun] at hq
        simp only [Option.some.injEq] at hq
        subst hq
        simp
      · rw [show toyRun false (1 :: r) = toyRun true r from rfl] at hq
        exact Nat.lt_succ_of_lt (ih true q hq he)
      · rw [show toyRun false ((k + 2) :: r) = none from rfl] at hq
        exact absurd hq (by simp)

/-- A corrupt chunk stays corrupt under extension. -/
theorem toyRun_none_append : ∀ (u : List Nat) (s : Bool) (v : List Nat),
    toyRun s u = none → toyRun s (u ++ v) = none := by
  intro u
  induction u with
  | nil =>
    intro s v hn
    cases s <;> simp [toyRun] at hn
  | cons b r ih =>
    intro s v hn
    cases s with
    | true =>
      rw [toyRun] at hn
      cases hq' : toyRun false r with
      | none =>
        show (toyRun false (r ++ v)).map _ = none
        rw [ih false v hq']
        rfl
      | some q' => rw [hq'] at hn; simp at hn
    | false =>
      rcases b with _ | _ | k
      · rw [toyRun] at hn; simp at hn
      · rw [show toyRun false (1 :: r) = toyRun true r from rfl] at hn
        exact ih true v hn
      · rfl

/-- Extending a chunk that reached the end marker only extends the
remainder. -/
theorem toyRun_append_eof : ∀ (u : List Nat) (s : Bool) (v : List Nat) (q : ToyRunRes),
    toyRun s u = some q → q.eof = true →
    toyRun s (u ++ v) = some ⟨q.out, true, q.rest ++ v, q.st⟩ := by
  intro u
  induction u with
  | nil =>
    intro s v q hq he
    cases s <;> (simp only [toyRun, Option.some.injEq] at hq; subst hq; simp at he)
  | cons b r ih =>
    intro s v q hq he
    cases s with
    | true =>
      rw [toyRun] at hq
      cases hq' : toyRun false r with
      | none => rw [hq'] at hq; simp at hq
      | some q' =>
        rw [hq'] at hq
        simp only [Option.map_some', Option.some.injEq] at hq
        subst hq
        simp only at he ⊢
        show (toyRun false (r ++ v)).map _ = _
        rw [ih false v q' hq' he]
        rfl
    | false =>
      rcases b with _ | _ | k
      · rw [toyRun] at hq
        simp only [Option.some.injEq] at hq
        subst hq
        rfl
      · rw [show toyRun false (1 :: r) = toyRun true r from rfl] at hq
        exact ih true v q hq he
      · rw [show toyRun false ((k + 2) :: r) = none from rfl] at hq
        exact absurd hq (by simp)

/-- `contD` is fuel-monotone. -/
theorem contD_mono : ∀ (f : Nat) (s : Bool) (d : List Nat) (r : List Nat) (g : Nat),
    contD f s d = some r → f ≤ g → contD g s d = some r := by
  intro f
  induction f with
  | zero => intro s d r g h _; simp [contD] at h
  | succ n ih =>
    intro s d r g h hfg
    obtain ⟨m, rfl⟩ : ∃ m, g = m + 1 := ⟨g - 1, by omega⟩
    cases hq : toyRun s d with
    | none => rw [contD, hq] at h; exact absurd h (by simp)
    | some q =>
      rw [contD, hq] at h
      rw [contD, hq]
      simp only at h ⊢
      by_cases he : q.eof = true
      · rw [if_pos he] at h ⊢
        by_cases hr : q.rest = []
        · rw [if_pos hr] at h ⊢; exact h
        · rw [if_neg hr] at h ⊢
          cases hc : contD n false q.rest with
          | none => rw [hc] at h; simp at h
          | some w =>
            rw [hc] at h
            rw [ih false q.rest w m hc (by omega)]
            exact h
      · rw [if_neg he] at h; simp at h

/-- A successful `contD` already succeeds with the canonical budget
`length + 1` (each stream consumes at least its end marker). -/
theorem contD_norm_aux : ∀ (k : Nat) (d : List Nat) (f : Nat) (s : Bool) (r : List Nat),
    d.length ≤ k → contD f s d = some r → contD (d.length + 1) s d = some r := by
  intro k
  induction k with
  | zero =>
    intro d f s r hk h
    have hd : d = [] := List.length_eq_zero.mp (Nat.le_zero.mp hk)
    subst hd
    obtain ⟨n, rfl⟩ : ∃ n, f = n + 1 := by
      cases f with
      | zero => simp [contD] at h
      | succ n => exact ⟨n, rfl⟩
    rw [contD] at h
    cases s <;> simp [toyRun] at h
  | succ k ih =>
    intro d f s r hk h
    obtain ⟨n, rfl⟩ : ∃ n, f = n + 1 := by
      cases f with
      | zero => simp [contD] at h
      | succ n => exact ⟨n, rfl⟩
    rw [contD] at h
    cases hq : toyRun s d with
    | none => rw [hq] at h; simp at h
    | some q =>
      rw [hq] at h
      simp only at h
      rw [contD, hq]
      simp only
      by_cases he : q.eof = true
      · rw [if_pos he] at h
        rw [if_pos he]
        by_cases hr : q.rest = []
        · rw [if_pos hr] at h
          rw [if_pos hr]
          exact h
        · rw [if_neg hr] at h
          rw [if_neg hr]
          cases hc : contD n false q.rest with
          | none => rw [hc] at h; simp at h
          | some w =>
            rw [hc] at h
            have hlt : q.rest.length < d.length := toyRun_eof_rest_lt d s q hq he
            have hc2 := ih q.rest n false w (by omega) hc
            have hc3 := contD_mono (q.rest.length + 1) false q.rest w d.length hc2 (by omega)
            rw [hc3]
            exact h
      · rw [if_neg he] at h; simp at h

/-- `contD_norm_aux` with the bound instantiated. -/
theorem contD_norm (d : List Nat) (f : Nat) (s : Bool) (r : List Nat)
    (h : contD f s d = some r) : contD (d.length + 1) s d = some r :=
  contD_norm_aux d.length d f s r (Nat.le_refl _) h

/-- Peeling a chunk that ends mid-stream off a pending decode. -/
theorem pend_step_mid (u v : List Nat) (s : Bool) (q : ToyRunRes) (rest : List Nat)
    (hq : toyRun s u = some q) (he : q.eof = false)
    (hp : contD ((u ++ v).length + 1) s (u ++ v) = some rest) :
    ∃ r2, contD (v.length + 1) q.st v = some r2 ∧ rest = q.out ++ r2 := by
  have hr : q.rest = [] := toyRun_rest u s q hq he
  have happ := toyRun_append u s v q hq he hr
  rw [contD, happ] at hp
  cases hpv : toyRun q.st v with
  | none => rw [hpv] at hp; simp at hp
  | some p =>
    rw [hpv] at hp
    by_cases hpe : p.eof = true
    · by_cases hpr : p.rest = []
      · simp [hpe, hpr] at hp
        refine ⟨p.out, ?_, hp.symm⟩
        simp [contD, hpv, hpe, hpr]
      · simp [hpe, hpr] at hp
        obtain ⟨a, ha, hrest⟩ := hp
        have hw2 := contD_norm p.rest _ false a ha
        have hlt : p.rest.length < v.length := toyRun_eof_rest_lt v q.st p hpv hpe
        have hw3 := contD_mono (p.rest.length + 1) false p.rest a v.length hw2 (by omega)
        refine ⟨p.out ++ a, ?_, hrest.symm⟩
        simp [contD, hpv, hpe, hpr, hw3]
    · simp [hpe] at hp

/-- Peeling a chunk that completes the current stream off a pending decode:
what remains is the decode of the chunk remainder re-fed to a fresh
decompressor followed by the rest of the source. -/
theorem pend_step_eof (u v : List Nat) (s : Bool) (q : ToyRunRes) (rest : List Nat)
    (hq : toyRun s u = some q) (he : q.eof = true)
    (hp : contD ((u ++ v).length + 1) s (u ++ v) = some rest) :
    ∃ r2, (if q.rest ++ v = [] then some []
           else contD ((q.rest ++ v).length + 1) false (q.rest ++ v)) = some r2 ∧
      rest = q.out ++ r2 := by
  have happ := toyRun_append_eof u s v q hq he
  rw [contD, happ] at hp
  by_cases hrv : q.rest ++ v = []
  · simp [hrv] at hp
    refine ⟨[], by rw [if_pos hrv], ?_⟩
    rw [← hp]; simp
  · simp [hrv] at hp
    obtain ⟨a, ha, hrest⟩ := hp
    refine ⟨a, ?_, hrest.symm⟩
    rw [if_neg hrv]
    exact contD_norm (q.rest ++ v) _ false a ha

/-- A pending decode never starts with a corrupt chunk. -/
theorem contD_chunk_not_none (f : Nat) (s : Bool) (u v rest : List Nat)
    (hp : contD f s (u ++ v) = some rest) : toyRun s u ≠ none := by
  intro hn
  obtain ⟨n, rfl⟩ : ∃ n, f = n + 1 := by
    cases f with
    | zero => simp [contD] at hp
    | succ n => exact ⟨n, rfl⟩
  rw [contD, toyRun_none_append u s v hn] at hp
  simp at hp

/-- An exhausted source cannot be mid-stream in a pending decode. -/
theorem contD_nil (f : Nat) (s : Bool) (r : List Nat) :
    contD f s [] = some r → False := by
  intro h
  cases f with
  | zero => simp [contD] at h
  | succ n => cases s <;> simp [contD, toyRun] at h

/-- One iteration of `_fill_buffer` on the model codec: either the source is
finished (and nothing was pending), or the iteration consumed one raw block
and the new state has the corresponding remaining pending decode. -/
theorem fillIter_toy (st : LZMAFileSt Bool) (rest : List Nat) (dfuel : Nat)
    (hbuf : st.buffer = [])
    (hinv : st.dec.eof = false → st.dec.unused_data = [])
    (hpend : wrapPend st = some rest)
    (hd1 : 2 * BUFFER_SIZE + 2 ≤ dfuel)
    (hd2 : 2 * st.dec.unused_data.length + 2 ≤ dfuel) :
    (LZMAFile.fillIter toyDec dfuel st =
        .ok (.inl ({ st with mode := .readEof, size := (st.pos : Int) }, false)) ∧
      rest = []) ∨
    (∃ st2 r2, LZMAFile.fillIter toyDec dfuel st = .ok (.inr st2) ∧
      st2.pos = st.pos ∧ st2.mode = st.mode ∧
      wrapPend st2 = some r2 ∧ st2.buffer ++ r2 = rest ∧
      (st2.dec.eof = false → st2.dec.unused_data = []) ∧
      st2.dec.unused_data.length + st2.fp.length <
        st.dec.unused_data.length + st.fp.length ∧
      2 * st2.dec.unused_data.length + 2 ≤ dfuel) := by
  obtain ⟨fp, ⟨chk, un, eo, lz⟩, buf, pos, mode, size⟩ := st
  simp only at hbuf hinv hpend hd2 ⊢
  subst hbuf
  cases eo with
  | true =>
    cases hu : un with
    | cons y un1 =>
      -- drain unused_data into a fresh decompressor
      subst hu
      rw [wrapPend] at hpend
      simp only [List.cons_append] at hpend
      simp at hpend
      cases hq : toyRun false (y :: un1) with
      | none =>
        have hpend2 : contD ((((y :: un1) ++ fp)).length + 1) false ((y :: un1) ++ fp) =
            some rest := by simpa using hpend
        exact absurd hq (contD_chunk_not_none _ _ _ fp rest hpend2)
      | some q =>
        have hdb : 2 * (y :: un1).length + 2 ≤ dfuel := by simpa using hd2
        have hdec := decompress_toy (y :: un1) CHECK_UNKNOWN false q dfuel hq hdb
        have hpend2 : contD (((y :: un1) ++ fp).length + 1) false ((y :: un1) ++ fp) =
            some rest := by simpa using hpend
        cases hqe : q.eof with
        | false =>
          have hqr : q.rest = [] := toyRun_rest _ _ _ hq hqe
          obtain ⟨r2, hc, hrest⟩ := pend_step_mid (y :: un1) fp false q rest hq hqe hpend2
          right
          refine ⟨⟨fp, ⟨CHECK_UNKNOWN, [], false, q.st⟩, q.out, pos, mode, size⟩, r2,
            ?_, rfl, rfl, ?_, ?_, by simp, by simp, by (try simp) <;> omega⟩
          · simp [LZMAFile.fillIter, mk_toyDec_eq, hdec, hqr, hqe]
          · simpa [wrapPend] using hc
          · simpa using hrest.symm
        | true =>
          obtain ⟨r2, hc, hrest⟩ := pend_step_eof (y :: un1) fp false q rest hq hqe hpend2
          have hlt : q.rest.length < (y :: un1).length :=
            toyRun_eof_rest_lt _ _ _ hq hqe
          right
          refine ⟨⟨fp, ⟨CHECK_UNKNOWN, q.rest, true, q.st⟩, q.out, pos, mode, size⟩, r2,
            ?_, rfl, rfl, ?_, ?_, by simp, ?_, ?_⟩
          · simp [LZMAFile.fillIter, mk_toyDec_eq, hdec, hqe]
          · simpa [wrapPend] using hc
          · simpa using hrest.symm
          · simp only [List.length_cons] at hlt ⊢
            try simp
            omega
          · simp only [List.length_cons] at hd2 ⊢
            try simp
            omega
    | nil =>
      subst hu
      by_cases hfpe : fp = []
      · subst hfpe
        left
        constructor
        · simp [LZMAFile.fillIter, BUFFER_SIZE]
        · rw [wrapPend] at hpend
          simp at hpend
          exact hpend
      · -- read a chunk into a fresh decompressor
        have hce : fp.take BUFFER_SIZE ≠ [] := by
          simp [List.take_eq_nil_iff, hfpe, BUFFER_SIZE]
        have hpos : 0 < fp.length := List.length_pos.mpr hfpe
        have hsum : (fp.take BUFFER_SIZE).length + (fp.drop BUFFER_SIZE).length =
            fp.length := by
          rw [← List.length_append, List.take_append_drop]
        have htle : (fp.take BUFFER_SIZE).length ≤ BUFFER_SIZE :=
          List.length_take_le _ _
        rw [wrapPend] at hpend
        simp [hfpe] at hpend
        rw [← List.take_append_drop BUFFER_SIZE fp] at hpend
        cases hq : toyRun false (fp.take BUFFER_SIZE) with
        | none =>
          exact absurd hq (contD_chunk_not_none _ _ _ (fp.drop BUFFER_SIZE) rest hpend)
        | some q =>
          have hdb : 2 * (fp.take BUFFER_SIZE).length + 2 ≤ dfuel := by omega
          have hdec := decompress_toy (fp.take BUFFER_SIZE) CHECK_UNKNOWN false q dfuel hq hdb
          cases hqe : q.eof with
          | false =>
            have hqr : q.rest = [] := toyRun_rest _ _ _ hq hqe
            obtain ⟨r2, hc, hrest⟩ :=
              pend_step_mid (fp.take BUFFER_SIZE) (fp.drop BUFFER_SIZE) false q rest hq hqe hpend
            right
            refine ⟨⟨fp.drop BUFFER_SIZE, ⟨CHECK_UNKNOWN, [], false, q.st⟩, q.out,
              pos, mode, size⟩, r2, ?_, rfl, rfl, ?_, ?_, by simp, ?_, by (try simp) <;> omega⟩
            · simp [LZMAFile.fillIter, mk_toyDec_eq, hdec, hqr, hqe, hce]
            · simpa [wrapPend] using hc
            · simpa using hrest.symm
            · simp only [List.length_drop, List.length_nil]
              simp [BUFFER_SIZE] at hpos ⊢
              omega
          | true =>
            obtain ⟨r2, hc, hrest⟩ :=
              pend_step_eof (fp.take BUFFER_SIZE) (fp.drop BUFFER_SIZE) false q rest hq hqe hpend
            have hlt : q.rest.length < (fp.take BUFFER_SIZE).length :=
              toyRun_eof_rest_lt _ _ _ hq hqe
            right
            refine ⟨⟨fp.drop BUFFER_SIZE, ⟨CHECK_UNKNOWN, q.rest, true, q.st⟩, q.out,
              pos, mode, size⟩, r2, ?_, rfl, rfl, ?_, ?_, by simp, ?_, ?_⟩
            · simp [LZMAFile.fillIter, mk_toyDec_eq, hdec, hqe, hce]
            · simpa [wrapPend] using hc
            · simpa using hrest.symm
            · simp only [List.length_drop, List.length_nil]
              try simp
              omega
            · simp
              omega
  | false =>
    have hun : un = [] := hinv rfl
    subst hun
    by_cases hfpe : fp = []
    · subst hfpe
      rw [wrapPend] at hpend
      simp at hpend
      exact absurd hpend (by intro h; exact contD_nil _ _ _ h)
    · have hce : fp.take BUFFER_SIZE ≠ [] := by
        simp [List.take_eq_nil_iff, hfpe, BUFFER_SIZE]
      have hpos : 0 < fp.length := List.length_pos.mpr hfpe
      have hsum : (fp.take BUFFER_SIZE).length + (fp.drop BUFFER_SIZE).length =
          fp.length := by
        rw [← List.length_append, List.take_append_drop]
      have htle : (fp.take BUFFER_SIZE).length ≤ BUFFER_SIZE :=
        List.length_take_le _ _
      rw [wrapPend] at hpend
      simp at hpend
      rw [← List.take_append_drop BUFFER_SIZE fp] at hpend
      cases hq : toyRun lz (fp.take BUFFER_SIZE) with
      | none =>
        exact absurd hq (contD_chunk_not_none _ _ _ (fp.drop BUFFER_SIZE) rest hpend)
      | some q =>
        have hdb : 2 * (fp.take BUFFER_SIZE).length + 2 ≤ dfuel := by omega
        have hdec := decompress_toy (fp.take BUFFER_SIZE) chk lz q dfuel hq hdb
        cases hqe : q.eof with
        | false =>
          have hqr : q.rest = [] := toyRun_rest _ _ _ hq hqe
          obtain ⟨r2, hc, hrest⟩ :=
            pend_step_mid (fp.take BUFFER_SIZE) (fp.drop BUFFER_SIZE) lz q rest hq hqe hpend
          right
          refine ⟨⟨fp.drop BUFFER_SIZE, ⟨chk, [], false, q.st⟩, q.out,
            pos, mode, size⟩, r2, ?_, rfl, rfl, ?_, ?_, by simp, ?_, by (try simp) <;> omega⟩
          · simp [LZMAFile.fillIter, hdec, hqr, hqe, hce]
          · simpa [wrapPend] using hc
          · simpa using hrest.symm
          · simp only [List.length_drop, List.length_nil]
            simp [BUFFER_SIZE] at hpos ⊢
            omega
        | true =>
          obtain ⟨r2, hc, hrest⟩ :=
            pend_step_eof (fp.take BUFFER_SIZE) (fp.drop BUFFER_SIZE) lz q rest hq hqe hpend
          have hlt : q.rest.length < (fp.take BUFFER_SIZE).length :=
            toyRun_eof_rest_lt _ _ _ hq hqe
          right
          refine ⟨⟨fp.drop BUFFER_SIZE, ⟨chk, q.rest, true, q.st⟩, q.out,
            pos, mode, size⟩, r2, ?_, rfl, rfl, ?_, ?_, by simp, ?_, ?_⟩
          · simp [LZMAFile.fillIter, hdec, hqe, hce]
          · simpa [wrapPend] using hc
          · simpa using hrest.symm
          · simp only [List.length_drop, List.length_nil]
            try simp
            omega
          · simp
            omega

/-- `_fill_buffer` on the model codec: returns `False` exactly when nothing
was pending, otherwise delivers a non-empty buffer that is a prefix of the
pending bytes. -/
theorem fillBuffer_toy :
    ∀ (ffuel : Nat) (st : LZMAFileSt Bool) (rest r0 : List Nat) (dfuel : Nat),
    wrapPend st = some r0 →
    st.buffer ++ r0 = rest →
    (st.dec.eof = false → st.dec.unused_data = []) →
    st.dec.unused_data.length + st.fp.length + 2 ≤ ffuel →
    2 * BUFFER_SIZE + 2 ≤ dfuel →
    2 * st.dec.unused_data.length + 2 ≤ dfuel →
    ∃ st2 b, LZMAFile.fillBuffer toyDec dfuel ffuel st = .ok (st2, b) ∧
      st2.pos = st.pos ∧
      (b = false → st2.mode = .readEof ∧ rest = []) ∧
      (b = true → st2.mode = st.mode ∧ st2.buffer ≠ [] ∧
        ∃ r2, wrapPend st2 = some r2 ∧ st2.buffer ++ r2 = rest ∧
          (st2.dec.eof = false → st2.dec.unused_data = []) ∧
          st2.dec.unused_data.length + st2.fp.length ≤
            st.dec.unused_data.length + st.fp.length ∧
          2 * st2.dec.unused_data.length + 2 ≤ dfuel) := by
  intro ffuel
  induction ffuel with
  | zero => intro st rest r0 dfuel _ _ _ hf _ _; omega
  | succ n ih =>
    intro st rest r0 dfuel hpend hbr hinv hf hd1 hd2
    by_cases hb : st.buffer = []
    · have hrr : rest = r0 := by rw [← hbr, hb]; rfl
      subst hrr
      rcases fillIter_toy st rest dfuel hb hinv hpend hd1 hd2 with
        ⟨hit, hre⟩ | ⟨st2, r2, hit, hpos, hmode, hp2, hbr2, hinv2, hmeas, hd2'⟩
      · refine ⟨{ st with mode := .readEof, size := (st.pos : Int) }, false, ?_, rfl,
          fun _ => ⟨rfl, hre⟩, by simp⟩
        rw [LZMAFile.fillBuffer, hit]
      · obtain ⟨st3, b, hfill, hpos3, hfalse, htrue⟩ :=
          ih st2 rest r2 dfuel hp2 hbr2 hinv2 (by omega) hd1 hd2'
        refine ⟨st3, b, ?_, by rw [hpos3, hpos], hfalse, ?_⟩
        · rw [LZMAFile.fillBuffer, hit]
          exact hfill
        · intro hbt
          obtain ⟨hm3, hbne3, r3, hp3, hbr3, hinv3, hmeas3, hd3⟩ := htrue hbt
          exact ⟨by rw [hm3, hmode], hbne3, r3, hp3, hbr3, hinv3, by omega, hd3⟩
    · have hit : LZMAFile.fillIter toyDec dfuel st = .ok (.inl (st, true)) := by
        simp [LZMAFile.fillIter, hb]
      refine ⟨st, true, ?_, rfl, by simp, ?_⟩
      · rw [LZMAFile.fillBuffer, hit]
      · intro _
        exact ⟨rfl, hb, r0, hpend, hbr, hinv, Nat.le_refl _, hd2⟩

/-- `_read_all` on the model codec delivers exactly the pending bytes. -/
theorem readAll_toy :
    ∀ (rfuel : Nat) (st : LZMAFileSt Bool) (rest r0 : List Nat) (dfuel ffuel : Nat),
    wrapPend st = some r0 →
    st.buffer ++ r0 = rest →
    (st.dec.eof = false → st.dec.unused_data = []) →
    st.dec.unused_data.length + st.fp.length + 2 ≤ ffuel →
    2 * BUFFER_SIZE + 2 ≤ dfuel →
    2 * st.dec.unused_data.length + 2 ≤ dfuel →
    rest.length + 1 ≤ rfuel →
    ∃ st3, LZMAFile.readAll toyDec dfuel ffuel rfuel st = .ok (st3, rest) := by
  intro rfuel
  induction rfuel with
  | zero => intro st rest r0 dfuel ffuel _ _ _ _ _ _ hr; omega
  | succ n ih =>
    intro st rest r0 dfuel ffuel hpend hbr hinv hf hd1 hd2 hr
    obtain ⟨st2, b, hfill, hpos, hfalse, htrue⟩ :=
      fillBuffer_toy ffuel st rest r0 dfuel hpend hbr hinv hf hd1 hd2
    cases b with
    | false =>
      obtain ⟨_, hre⟩ := hfalse rfl
      refine ⟨st2, ?_⟩
      rw [LZMAFile.readAll, hfill, hre]
    | true =>
      obtain ⟨hm2, hbne2, r2, hp2, hbr2, hinv2, hmeas2, hd2'⟩ := htrue rfl
      have hlen : r2.length + 1 ≤ n := by
        have : rest.length = st2.buffer.length + r2.length := by
          rw [← hbr2, List.length_append]
        have hbp : 0 < st2.buffer.length := List.length_pos.mpr hbne2
        omega
      obtain ⟨st3, hra⟩ :=
        ih { st2 with buffer := [], pos := st2.pos + st2.buffer.length } r2 r2 dfuel ffuel
          hp2 (by simp) hinv2 (by simp; omega) hd1 hd2' hlen
      refine ⟨st3, ?_⟩
      rw [LZMAFile.readAll, hfill]
      simp only [hra, hbr2]

/-- A single whole model stream decodes in one `contD` round. -/
theorem contD_toyCompress (f : Nat) (hf : 1 ≤ f) (b : List Nat) :
    contD f false (toyCompress b) = some b := by
  obtain ⟨k, rfl⟩ : ∃ k, f = k + 1 := ⟨f - 1, by omega⟩
  have hrun : toyRun false (toyCompress b) = some ⟨b, true, [], false⟩ := by
    rw [show toyCompress b = encodeBytes b ++ 0 :: [] from rfl]
    exact toyRun_stream b []
  rw [contD, hrun]
  simp

/-- Opening the wrapper on two concatenated model streams leaves `a ++ b`
pending. -/
theorem wrapPend_open_two (a b : List Nat) :
    wrapPend (LZMAFile.openRead toyDec (toyCompress a ++ toyCompress b)) =
      some (a ++ b) := by
  rw [wrapPend]
  simp only [LZMAFile.openRead, LZMADecompressor.mk, toyDec_start_eq]
  rw [if_neg (by simp)]
  obtain ⟨k, hk⟩ : ∃ k, (toyCompress a ++ toyCompress b).length = k + 1 := by
    refine ⟨(toyCompress a ++ toyCompress b).length - 1, ?_⟩
    have : toyCompress a ≠ [] := toyCompress_ne_nil a
    have h1 : 0 < (toyCompress a).length := List.length_pos.mpr this
    simp only [List.length_append]
    omega
  rw [hk, contD]
  have hrun1 : toyRun false (toyCompress a ++ toyCompress b) =
      some ⟨a, true, toyCompress b, false⟩ := by
    rw [show toyCompress a ++ toyCompress b = encodeBytes a ++ 0 :: toyCompress b by
      rw [toyCompress, List.append_assoc]; rfl]
    exact toyRun_stream a (toyCompress b)
  rw [hrun1]
  simp only [if_pos rfl, if_neg (toyCompress_ne_nil b)]
  rw [if_pos trivial, contD_toyCompress (k + 1) (by omega) b]
  rfl

/-- `_fill_buffer` raises `EOFError` ("Compressed file ended before the
end-of-stream marker was reached") when the source is exhausted, nothing is
buffered, and the decompressor has not reached end-of-stream — for any
engine. -/
theorem fillBuffer_premature {σ : Type} (E : Engine σ) (dfuel n : Nat)
    (st : LZMAFileSt σ)
    (hb : st.buffer = []) (hu : st.dec.unused_data = [])
    (hfp : st.fp = []) (he : st.dec.eof = false) :
    LZMAFile.fillBuffer E dfuel (n + 1) st = .error .prematureEnd := by
  have hit : LZMAFile.fillIter E dfuel st = .error .prematureEnd := by
    simp [LZMAFile.fillIter, hb, hu, hfp, he]
  rw [LZMAFile.fillBuffer, hit]

theorem indexTotal_nil : indexTotal [] = 0 := rfl

theorem indexTotal_cons (b : XZBlock) (l : List XZBlock) :
    indexTotal (b :: l) = b.uncompSize + indexTotal l := by
  simp [indexTotal]

theorem indexTotal_append (l1 l2 : List XZBlock) :
    indexTotal (l1 ++ l2) = indexTotal l1 + indexTotal l2 := by
  simp [indexTotal]

/-- Offsets accumulate along a contiguous chain. -/
theorem chain_decomp : ∀ (pre : List XZBlock) (c : Nat) (b : XZBlock)
    (post : List XZBlock), chainFrom c (pre ++ b :: post) →
    b.uncompOff = c + indexTotal pre ∧
    chainFrom (b.uncompOff + b.uncompSize) post := by
  intro pre
  induction pre with
  | nil =>
    intro c b post h
    obtain ⟨hoff, hch⟩ := h
    refine ⟨by simp [indexTotal_nil, hoff], ?_⟩
    rw [hoff]
    exact hch
  | cons p pre ih =>
    intro c b post h
    obtain ⟨hoff, hch⟩ := h
    obtain ⟨h1, h2⟩ := ih (c + p.uncompSize) b post hch
    exact ⟨by rw [h1, indexTotal_cons]; omega, h2⟩

/-- Offset-to-block lookup succeeds inside the index's range, returning the
containing block together with its position in the list. -/
theorem find_in : ∀ (idx : List XZBlock) (c o : Nat), chainFrom c idx →
    c ≤ o → o < c + indexTotal idx →
    ∃ pre b post, idx = pre ++ b :: post ∧ indexFind idx o = some b ∧
      b.uncompOff ≤ o ∧ o < b.uncompOff + b.uncompSize ∧
      b.uncompOff = c + indexTotal pre := by
  intro idx
  induction idx with
  | nil =>
    intro c o _ hco ho
    rw [indexTotal_nil] at ho
    omega
  | cons b1 rest ih =>
    intro c o hch hco ho
    obtain ⟨hoff, hch2⟩ := hch
    by_cases hin : o < c + b1.uncompSize
    · refine ⟨[], b1, rest, rfl, ?_, by omega, by omega, by simp [indexTotal_nil, hoff]⟩
      rw [indexFind, List.find?_cons_of_pos]
      simp [blockContains, hoff]
      omega
    · rw [indexTotal_cons] at ho
      obtain ⟨pre, b, post, heq, hfind, hle, hlt, hoffb⟩ :=
        ih (c + b1.uncompSize) o hch2 (by omega) (by omega)
      refine ⟨b1 :: pre, b, post, by rw [heq]; rfl, ?_, hle, hlt, ?_⟩
      · rw [indexFind, List.find?_cons_of_neg]
        · exact hfind
        · simp [blockContains, hoff]
          omega
      · rw [hoffb, indexTotal_cons]
        omega

/-- Offset-to-block lookup fails past the end of the index. -/
theorem find_out : ∀ (idx : List XZBlock) (c o : Nat), chainFrom c idx →
    c + indexTotal idx ≤ o → indexFind idx o = none := by
  intro idx
  induction idx with
  | nil => intro c o _ _; rfl
  | cons b1 rest ih =>
    intro c o hch ho
    obtain ⟨hoff, hch2⟩ := hch
    rw [indexTotal_cons] at ho
    rw [indexFind, List.find?_cons_of_neg]
    · exact ih (c + b1.uncompSize) o hch2 (by omega)
    · simp [blockContains, hoff]
      omega

/-- The content of a valid index has exactly the declared total length. -/
theorem fullContent_length : ∀ (idx : List XZBlock) (C : XZBlock → List Nat),
    (∀ b ∈ idx, (C b).length = b.uncompSize) →
    (fullContent idx C).length = indexTotal idx := by
  intro idx C
  induction idx with
  | nil => intro _; rfl
  | cons b rest ih =>
    intro h
    rw [fullContent, List.map_cons, List.flatten_cons, List.length_append,
      indexTotal_cons, h b (by simp)]
    rw [fullContent] at ih
    rw [ih (fun x hx => h x (by simp [hx]))]

/-- Dropping past a left part of an append. -/
theorem drop_append_ge {α : Type} : ∀ (l1 l2 : List α) (n : Nat),
    l1.length ≤ n → (l1 ++ l2).drop n = l2.drop (n - l1.length) := by
  intro l1
  induction l1 with
  | nil => intro l2 n _; simp
  | cons x r ih =>
    intro l2 n h
    obtain ⟨m, rfl⟩ : ∃ m, n = m + 1 := by
      cases n with
      | zero => simp at h
      | succ m => exact ⟨m, rfl⟩
    simp only [List.cons_append, List.drop_succ_cons, List.length_cons]
    rw [ih l2 m (by simpa using h)]
    congr 1
    omega

/-- A chain splits across an append. -/
theorem chain_split : ∀ (l1 : List XZBlock) (c : Nat) (l2 : List XZBlock),
    chainFrom c (l1 ++ l2) →
    chainFrom c l1 ∧ chainFrom (c + indexTotal l1) l2 := by
  intro l1
  induction l1 with
  | nil => intro c l2 h; exact ⟨trivial, by simpa [indexTotal_nil] using h⟩
  | cons b r ih =>
    intro c l2 h
    obtain ⟨hoff, hch⟩ := h
    obtain ⟨h1, h2⟩ := ih (c + b.uncompSize) l2 hch
    refine ⟨⟨hoff, h1⟩, ?_⟩
    rw [indexTotal_cons]
    have : c + (b.uncompSize + indexTotal r) = c + b.uncompSize + indexTotal r := by omega
    rw [this]
    exact h2

/-- Lookup skips a chained left part that ends at or before the offset. -/
theorem find_skip : ∀ (l1 : List XZBlock) (c : Nat) (l2 : List XZBlock) (o : Nat),
    chainFrom c l1 → c + indexTotal l1 ≤ o →
    indexFind (l1 ++ l2) o = indexFind l2 o := by
  intro l1
  induction l1 with
  | nil => intro c l2 o _ _; rfl
  | cons b r ih =>
    intro c l2 o hch ho
    obtain ⟨hoff, hch2⟩ := hch
    rw [indexTotal_cons] at ho
    rw [List.cons_append, indexFind, List.find?_cons_of_neg]
    · exact ih (c + b.uncompSize) l2 o hch2 (by omega)
    · simp [blockContains, hoff]
      omega

/-- Dropping within the left part of an append. -/
theorem drop_append_le {α : Type} : ∀ (l1 l2 : List α) (n : Nat),
    n ≤ l1.length → (l1 ++ l2).drop n = l1.drop n ++ l2 := by
  intro l1
  induction l1 with
  | nil =>
    intro l2 n h
    simp at h
    simp [h]
  | cons x r ih =>
    intro l2 n h
    cases n with
    | zero => simp
    | succ m =>
      simp only [List.cons_append, List.drop_succ_cons]
      exact ih l2 m (by simpa using h)

/-- Under the reader invariant (read case), `buffer ++ rem` followed by the
contents of the later blocks is exactly the container content after the
current position. -/
theorem SInv_content (idx : List XZBlock) (C : XZBlock → List Nat)
    (hv : ValidIndex idx C) (st : SeekSt)
    (pre : List XZBlock) (b : XZBlock) (post : List XZBlock)
    (heq : idx = pre ++ b :: post)
    (hple : b.uncompOff ≤ st.pos)
    (hpe : st.pos ≤ b.uncompOff + b.uncompSize)
    (hbr : st.buffer ++ st.rem = (C b).drop (st.pos - b.uncompOff)) :
    (fullContent idx C).drop st.pos =
      st.buffer ++ st.rem ++ ((post.map C).flatten) := by
  obtain ⟨hch, hlen⟩ := hv
  subst heq
  have hdec := chain_decomp pre 0 b post hch
  have hpre : ((pre.map C).flatten).length = indexTotal pre := by
    have := fullContent_length pre C (fun x hx => hlen x (by simp [hx]))
    simpa [fullContent] using this
  have hcb : (C b).length = b.uncompSize := hlen b (by simp)
  have hfc : fullContent (pre ++ b :: post) C =
      (pre.map C).flatten ++ (C b ++ (post.map C).flatten) := by
    rw [fullContent, List.map_append, List.flatten_append, List.map_cons,
      List.flatten_cons]
  have hoff : indexTotal pre = b.uncompOff := by omega
  rw [hfc, drop_append_ge _ _ st.pos (by omega), hpre, hoff,
    drop_append_le _ _ _ (by omega), ← hbr, List.append_assoc]

/-- `_fill_buffer` on the seekable reader: under the invariant it refills the
buffer from the current block or moves to the next block, or reports EOF at
the end of the container; the position never changes. -/
theorem sFill_ok (idx : List XZBlock) (C : XZBlock → List Nat) (csz : Nat)
    (hv : ValidIndex idx C) (hcsz : 0 < csz) :
    ∀ (f : Nat) (st : SeekSt), 2 ≤ f → st.mode = .read → SInv idx C st →
    ∃ st2 r, sFillBuffer idx C csz f st = .ok (st2, r) ∧
      st2.pos = st.pos ∧ SInv idx C st2 ∧
      (r = false → st2.mode = .readEof ∧ st.pos = indexTotal idx) ∧
      (r = true → st2.mode = .read ∧ st2.buffer ≠ []) ∧
      (st.buffer ≠ [] ∨ st.rem ≠ [] →
        st2.decompCount = st.decompCount ∧ st2.blockEndsAt = st.blockEndsAt ∧
        st2.blockOffset = st.blockOffset) := by
  intro f st hf hm hinv
  obtain ⟨m, rfl⟩ : ∃ m, f = m + 2 := ⟨f - 2, by omega⟩
  rcases hinv with ⟨hm2, _⟩ | ⟨_, pre, b, post, heq, hbo, hbe, hple, hpe, hbr⟩
  · rw [hm] at hm2; exact absurd hm2 (by simp)
  by_cases hbuf : st.buffer = []
  · by_cases hrem : st.rem = []
    · -- block finished: move to the block containing the current position
      have hcb : (C b).length = b.uncompSize := hv.2 b (by rw [heq]; simp)
      have hposend : st.pos = b.uncompOff + b.uncompSize := by
        rw [hbuf, hrem] at hbr
        have hlen2 := congrArg List.length hbr
        simp [List.length_drop] at hlen2
        have hpe2 : st.pos ≤ b.uncompOff + b.uncompSize := by rw [← hbe]; exact hpe
        omega
      have heq2 : idx = (pre ++ [b]) ++ post := by rw [heq]; simp
      have hsplit := chain_split (pre ++ [b]) 0 post (by rw [← heq2]; exact hv.1)
      have hoffb : b.uncompOff = 0 + indexTotal pre :=
        (chain_decomp pre 0 b post (by rw [← heq]; exact hv.1)).1
      have htot1 : indexTotal (pre ++ [b]) = st.pos := by
        rw [indexTotal_append, indexTotal_cons, indexTotal_nil]
        omega
      have hskip : indexFind idx st.pos = indexFind post st.pos := by
        rw [heq2]
        exact find_skip (pre ++ [b]) 0 post st.pos hsplit.1 (by omega)
      have hchpost : chainFrom st.pos post := by
        have := hsplit.2
        rw [htot1] at this
        simpa using this
      by_cases hpast : st.pos < indexTotal idx
      · have htotpost : indexTotal idx = st.pos + indexTotal post := by
          rw [heq2, indexTotal_append]
          omega
        obtain ⟨pre2, b2, post2, heqp, hfindp, hle2, hlt2, hoff2⟩ :=
          find_in post st.pos st.pos hchpost (Nat.le_refl _) (by omega)
        have hb2off : b2.uncompOff = st.pos := by omega
        have hfind : indexFind idx st.pos = some b2 := by rw [hskip, hfindp]
        have hcb2 : (C b2).length = b2.uncompSize := by
          refine hv.2 b2 ?_
          rw [heq2, heqp]
          simp
        have hcb2ne : C b2 ≠ [] := by
          intro hnil
          rw [hnil] at hcb2
          simp at hcb2
          omega
        have hit1 : sFillIter idx C csz st = .inr (initDecompressor C st b2) := by
          rw [sFillIter, if_neg (by simp [hbuf]), if_pos hrem, moveToBlock, hfind]
        have hit2 : sFillIter idx C csz (initDecompressor C st b2) =
            .inl (⟨.read, b2.uncompOff, b2.uncompOff, b2.uncompOff + b2.uncompSize,
              (C b2).take csz, (C b2).drop csz, st.decompCount + 1⟩, true) := by
          rw [sFillIter, if_neg (by simp [initDecompressor]), if_neg (by
            simp [initDecompressor, hcb2ne])]
          simp [initDecompressor]
        refine ⟨⟨.read, b2.uncompOff, b2.uncompOff, b2.uncompOff + b2.uncompSize,
          (C b2).take csz, (C b2).drop csz, st.decompCount + 1⟩, true, ?_, ?_, ?_,
          by simp, fun _ => ⟨rfl, ?_⟩,
          fun h => absurd hbuf (h.resolve_right fun h2 => h2 hrem)⟩
        · simp only [sFillBuffer, hit1, hit2]
        · simp [hb2off]
        · refine Or.inr ⟨rfl, (pre ++ [b]) ++ pre2, b2, post2, ?_, rfl, rfl, ?_, ?_, ?_⟩
          · rw [heq2, heqp]
            simp
          · simp
          · simp
          · simp
        · simp only
          intro hnil
          rw [List.take_eq_nil_iff] at hnil
          rcases hnil with h | h
          · omega
          · exact hcb2ne h
      · have hfind : indexFind idx st.pos = none := by
          have htotz : indexTotal post = 0 := by
            rw [heq2, indexTotal_append] at hpast
            omega
          rw [hskip]
          exact find_out post st.pos st.pos hchpost (by omega)
        have hptot : st.pos = indexTotal idx := by
          rw [heq2, indexTotal_append] at hpast ⊢
          omega
        have hit1 : sFillIter idx C csz st =
            .inl ({ st with pos := indexTotal idx, mode := .readEof }, false) := by
          rw [sFillIter, if_neg (by simp [hbuf]), if_pos hrem, moveToBlock, hfind]
        refine ⟨{ st with pos := indexTotal idx, mode := .readEof }, false, ?_,
          by simp [hptot], ?_, fun _ => ⟨rfl, hptot⟩, by simp,
          fun h => absurd hbuf (h.resolve_right fun h2 => h2 hrem)⟩
        · simp only [sFillBuffer, hit1]
        · exact Or.inl ⟨rfl, rfl, by simp; omega⟩
    · -- refill the buffer from the current block
      have hit1 : sFillIter idx C csz st =
          .inl ({ st with buffer := st.rem.take csz, rem := st.rem.drop csz },
            true) := by
        rw [sFillIter, if_neg (by simp [hbuf]), if_neg hrem]
      refine ⟨{ st with buffer := st.rem.take csz, rem := st.rem.drop csz },
        true, ?_, rfl, ?_, by simp, fun _ => ⟨hm, ?_⟩, fun _ => ⟨rfl, rfl, rfl⟩⟩
      · simp only [sFillBuffer, hit1]
      · refine Or.inr ⟨hm, pre, b, post, heq, hbo, hbe, hple, hpe, ?_⟩
        simp only
        rw [← hbr, hbuf]
        simp
      · simp only
        intro hnil
        rw [List.take_eq_nil_iff] at hnil
        rcases hnil with h | h
        · omega
        · exact hrem h
  · -- buffer already non-empty
    have hit1 : sFillIter idx C csz st = .inl (st, true) := by
      rw [sFillIter, if_pos (by simp [hbuf])]
    refine ⟨st, true, ?_, rfl, ?_, by simp, fun _ => ⟨hm, hbuf⟩,
      fun _ => ⟨rfl, rfl, rfl⟩⟩
    · simp only [sFillBuffer, hit1]
    · exact Or.inr ⟨hm, pre, b, post, heq, hbo, hbe, hple, hpe, hbr⟩

/-- Under the invariant the loaded block (or the recorded end) never extends
past the container's total uncompressed size. -/
theorem SInv_be_le_total (idx : List XZBlock) (C : XZBlock → List Nat)
    (hv : ValidIndex idx C) (st : SeekSt) (hinv : SInv idx C st) :
    st.blockEndsAt ≤ indexTotal idx := by
  rcases hinv with ⟨_, _, hbe⟩ | ⟨_, pre, b, post, heq, _, hbe, _, _, _⟩
  · exact hbe
  · have hoff : b.uncompOff = 0 + indexTotal pre :=
      (chain_decomp pre 0 b post (by rw [← heq]; exact hv.1)).1
    have : indexTotal idx = indexTotal pre + (b.uncompSize + indexTotal post) := by
      rw [heq, indexTotal_append, indexTotal_cons]
    omega

/-- `_read_block` under the invariant: reading `n` bytes returns the next
`n` bytes of the uncompressed content (fewer at the end of the container),
advances the position by the number of bytes returned, preserves the
invariant, and — when the request stays inside the loaded block — touches
neither the decompressor nor the loaded block range. -/
theorem sReadBlock_ok (idx : List XZBlock) (C : XZBlock → List Nat) (csz : Nat)
    (hv : ValidIndex idx C) (hcsz : 0 < csz) :
    ∀ (fuel : Nat) (st : SeekSt) (n : Nat), n + 1 ≤ fuel → st.mode = .read →
    SInv idx C st →
    ∃ stf, sReadBlock idx C csz fuel st n =
        .ok (stf, ((fullContent idx C).drop st.pos).take n) ∧
      stf.pos = st.pos + (((fullContent idx C).drop st.pos).take n).length ∧
      SInv idx C stf ∧
      (st.pos + n ≤ st.blockEndsAt →
        stf.decompCount = st.decompCount ∧ stf.blockEndsAt = st.blockEndsAt) := by
  intro fuel
  induction fuel with
  | zero => intro st n hn; omega
  | succ fuel ih =>
    intro st n hn hm hinv
    by_cases hn0 : n = 0
    · subst hn0
      refine ⟨st, ?_, by simp, hinv, fun _ => ⟨rfl, rfl⟩⟩
      rw [sReadBlock, if_pos rfl]
      simp
    · obtain ⟨st2, r, hfb, hpos2, hinv2, himf, himt, hframe⟩ :=
        sFill_ok idx C csz hv hcsz (fuel + 1) st (by omega) hm hinv
      cases r with
      | false =>
        obtain ⟨hmode2, hptot⟩ := himf rfl
        have hlen : (fullContent idx C).length = indexTotal idx :=
          fullContent_length idx C hv.2
        have hdropnil : (fullContent idx C).drop st.pos = [] := by
          apply List.drop_eq_nil_of_le
          omega
        have hbelt := SInv_be_le_total idx C hv st hinv
        refine ⟨st2, ?_, by simp [hdropnil, hpos2], hinv2, fun hc => ?_⟩
        · rw [sReadBlock, if_neg hn0, hfb]
          simp [hdropnil]
        · omega
      | true =>
        obtain ⟨hmode2, hbne2⟩ := himt rfl
        rcases hinv2 with ⟨hmr, _⟩ | ⟨_, pre, b, post, heq, hbo, hbe, hple, hpe2, hbr⟩
        · rw [hmode2] at hmr; exact absurd hmr (by simp)
        have hcb : (C b).length = b.uncompSize := hv.2 b (by rw [heq]; simp)
        have hlenbr : st2.buffer.length + st2.rem.length =
            b.uncompOff + b.uncompSize - st2.pos := by
          have := congrArg List.length hbr
          simp [List.length_drop] at this
          omega
        have hbposne : 0 < st2.buffer.length := List.length_pos.mpr hbne2
        have hdata : (if n < st2.buffer.length then st2.buffer.take n
            else st2.buffer) = st2.buffer.take n := by
          by_cases hlt : n < st2.buffer.length
          · rw [if_pos hlt]
          · rw [if_neg hlt, List.take_of_length_le (by omega)]
        have hbuf2 : (if n < st2.buffer.length then st2.buffer.drop n
            else []) = st2.buffer.drop n := by
          by_cases hlt : n < st2.buffer.length
          · rw [if_pos hlt]
          · rw [if_neg hlt, List.drop_eq_nil_of_le (by omega)]
        have hmlen : (st2.buffer.take n).length = min n st2.buffer.length :=
          List.length_take n st2.buffer
        have hdrop2 : st2.buffer.drop n = st2.buffer.drop (min n st2.buffer.length) := by
          by_cases hlt : n ≤ st2.buffer.length
          · rw [Nat.min_eq_left hlt]
          · rw [List.drop_eq_nil_of_le (by omega),
              Nat.min_eq_right (by omega), List.drop_eq_nil_of_le (by omega)]
        have hbrR : st2.buffer.drop n ++ st2.rem =
            (C b).drop (st2.pos + (st2.buffer.take n).length - b.uncompOff) := by
          rw [hdrop2, hmlen]
          have h1 : (st2.buffer ++ st2.rem).drop (min n st2.buffer.length) =
              st2.buffer.drop (min n st2.buffer.length) ++ st2.rem :=
            drop_append_le _ _ _ (by omega)
          rw [← h1, hbr, List.drop_drop]
          congr 1
          omega
        set stR : SeekSt :=
          { st2 with
              buffer := st2.buffer.drop n,
              pos := st2.pos + (st2.buffer.take n).length } with hstR
        have hinvR : SInv idx C stR := by
          refine Or.inr ⟨hmode2, pre, b, post, heq, hbo, hbe, by simp [hstR]; omega,
            ?_, hbrR⟩
          simp [hstR]
          rw [hbe]
          omega
        obtain ⟨st3, hrec, hpos3, hinv3, hframe3⟩ :=
          ih stR (n - (st2.buffer.take n).length) (by omega) hmode2 hinvR
        have hcontent : (fullContent idx C).drop st2.pos =
            st2.buffer ++ st2.rem ++ (List.map C post).flatten :=
          SInv_content idx C hv st2 pre b post heq hple (by omega) hbr
        have hlentail : st2.buffer.length ≤
            ((fullContent idx C).drop st2.pos).length := by
          rw [hcontent]
          simp
        have hposR : stR.pos = st2.pos + min n st2.buffer.length := by
          simp [hstR, hmlen]
        have hdropR : (fullContent idx C).drop stR.pos =
            ((fullContent idx C).drop st2.pos).drop (min n st2.buffer.length) := by
          rw [hposR, ← List.drop_drop]
        have htake : st2.buffer.take n =
            ((fullContent idx C).drop st2.pos).take (min n st2.buffer.length) := by
          rw [hcontent, List.append_assoc,
            List.take_append_of_le_length (by omega)]
          by_cases hlt : n ≤ st2.buffer.length
          · rw [Nat.min_eq_left hlt]
          · rw [Nat.min_eq_right (by omega), List.take_of_length_le (by omega),
              List.take_of_length_le (by omega)]
        have hout : st2.buffer.take n ++
            ((fullContent idx C).drop stR.pos).take (n - (st2.buffer.take n).length) =
            ((fullContent idx C).drop st.pos).take n := by
          rw [hmlen, htake, hdropR, ← List.take_add, hpos2]
          congr 1
          omega
        refine ⟨st3, ?_, ?_, hinv3, fun hc => ?_⟩
        · rw [sReadBlock, if_neg hn0, hfb]
          simp only [hdata, hbuf2, ← hstR, hrec, hout]
        · simp only [List.length_drop] at hlentail
          simp only [hpos3, hposR, hdropR, hmlen, List.length_take,
            List.length_drop, ← hpos2]
          omega
        · have hfne : st.buffer ≠ [] ∨ st.rem ≠ [] := by
            rcases hinv with ⟨hmr, _⟩ | ⟨_, preO, bO, postO, heqO, hboO, hbeO,
              hpleO, hpeO, hbrO⟩
            · rw [hm] at hmr; exact absurd hmr (by simp)
            have hcbO : (C bO).length = bO.uncompSize := hv.2 bO (by rw [heqO]; simp)
            have hlenO := congrArg List.length hbrO
            simp [List.length_drop] at hlenO
            by_contra hcon
            push_neg at hcon
            obtain ⟨hb0, hr0⟩ := hcon
            rw [hb0, hr0] at hlenO
            simp at hlenO
            omega
          obtain ⟨hdc2, hbe2, _⟩ := hframe hfne
          have hfr3 := hframe3 (by simp [hstR]; rw [hbe2]; omega)
          refine ⟨?_, ?_⟩
          · rw [hfr3.1]
            simp [hstR]
            rw [hdc2]
          · rw [hfr3.2]
            simp [hstR]
            rw [hbe2]

/-- `_move_to_block` lands on the block containing the requested offset, or
records EOF when the offset is past the last block; either way the invariant
holds afterwards. -/
theorem moveToBlock_ok (idx : List XZBlock) (C : XZBlock → List Nat)
    (hv : ValidIndex idx C) (st : SeekSt) (o : Nat)
    (hbe : st.blockEndsAt ≤ indexTotal idx) :
    (o < indexTotal idx →
      ∃ st2, moveToBlock idx C st o = (st2, true) ∧ SInv idx C st2 ∧
        st2.mode = .read ∧ st2.pos ≤ o ∧ o < st2.blockEndsAt) ∧
    (indexTotal idx ≤ o →
      moveToBlock idx C st o =
        ({ st with pos := indexTotal idx, mode := .readEof }, false) ∧
      SInv idx C { st with pos := indexTotal idx, mode := .readEof }) := by
  constructor
  · intro ho
    obtain ⟨pre, b, post, heq, hfind, hble, holt, hoff⟩ :=
      find_in idx 0 o hv.1 (Nat.zero_le _) (by omega)
    refine ⟨initDecompressor C st b, ?_, ?_, rfl, hble, holt⟩
    · rw [moveToBlock, hfind]
    · exact Or.inr ⟨rfl, pre, b, post, heq, rfl, rfl, Nat.le_refl _,
        Nat.le_add_right _ _, by simp [initDecompressor]⟩
  · intro ho
    have hfind : indexFind idx o = none := find_out idx 0 o hv.1 (by omega)
    refine ⟨?_, Or.inl ⟨rfl, rfl, hbe⟩⟩
    rw [moveToBlock, hfind]

/-- Opening a seekable file loads the block containing offset 0 (or records
EOF on an empty container): the invariant holds and the position is 0. -/
theorem sOpen_ok (idx : List XZBlock) (C : XZBlock → List Nat)
    (hv : ValidIndex idx C) :
    SInv idx C (sOpen idx C) ∧ (sOpen idx C).pos = 0 ∧
    (sOpen idx C).mode ≠ .closed := by
  have hbe0 : ((⟨.closed, 0, 0, 0, [], [], 0⟩ : SeekSt)).blockEndsAt ≤
      indexTotal idx := Nat.zero_le _
  by_cases h : 0 < indexTotal idx
  · obtain ⟨st2, heq, hinv, hmode, hple, _⟩ :=
      (moveToBlock_ok idx C hv _ 0 hbe0).1 h
    rw [sOpen, heq]
    exact ⟨hinv, show st2.pos = 0 by omega, show st2.mode ≠ .closed by
      rw [hmode]; simp⟩
  · obtain ⟨heq, hinv⟩ := (moveToBlock_ok idx C hv _ 0 hbe0).2 (by omega)
    rw [sOpen, heq]
    exact ⟨hinv, show indexTotal idx = 0 by omega, by simp⟩

/-- `seek` with an absolute target inside `[0, size]` lands exactly at the
target position and preserves the invariant. -/
theorem sSeek_ok (idx : List XZBlock) (C : XZBlock → List Nat) (csz fuel : Nat)
    (hv : ValidIndex idx C) (hcsz : 0 < csz) (st : SeekSt) (o : Nat)
    (hfuel : o + 1 ≤ fuel) (hinv : SInv idx C st) (hmc : st.mode ≠ .closed)
    (ho : o ≤ indexTotal idx) :
    ∃ st2, sSeek idx C csz fuel st (o : Int) 0 = .ok (st2, o) ∧
      SInv idx C st2 ∧ st2.pos = o ∧ st2.mode ≠ .closed := by
  have hlen : (fullContent idx C).length = indexTotal idx :=
    fullContent_length idx C hv.2
  have hmax : ((max (o : Int) 0)).toNat = o := by omega
  have hbelt := SInv_be_le_total idx C hv st hinv
  by_cases hcond : st.pos ≤ o ∧ o < st.blockEndsAt
  · obtain ⟨hc1, hc2⟩ := hcond
    have hcond : st.pos ≤ o ∧ o < st.blockEndsAt := ⟨hc1, hc2⟩
    have hmr : st.mode = .read := by
      rcases hinv with ⟨hm2, hp2, hb2⟩ | ⟨hm2, _⟩
      · exfalso
        omega
      · exact hm2
    obtain ⟨stf, hrb, hpf, hinvf, _⟩ := sReadBlock_ok idx C csz hv hcsz fuel st
      (o - st.pos) (by omega) hmr hinv
    have houtlen : ((((fullContent idx C).drop st.pos)).take (o - st.pos)).length =
        o - st.pos := by
      rw [List.length_take, List.length_drop]
      omega
    have hposf : stf.pos = o := by omega
    refine ⟨stf, ?_, hinvf, hposf, ?_⟩
    · rw [sSeek, if_neg hmc]
      simp only [hmax, if_pos hcond]
      rw [if_pos (show st.mode ≠ FMode.readEof by rw [hmr]; simp)]
      simp only [hrb, hposf]
    · rcases hinvf with ⟨hm2, _⟩ | ⟨hm2, _⟩ <;> rw [hm2] <;> simp
  · by_cases hpast : o < indexTotal idx
    · obtain ⟨stm, heqm, hinvm, hmodem, hplem, hltm⟩ :=
        (moveToBlock_ok idx C hv st o hbelt).1 hpast
      obtain ⟨stf, hrb, hpf, hinvf, _⟩ := sReadBlock_ok idx C csz hv hcsz fuel stm
        (o - stm.pos) (by omega) hmodem hinvm
      have houtlen : ((((fullContent idx C).drop stm.pos)).take (o - stm.pos)).length =
          o - stm.pos := by
        rw [List.length_take, List.length_drop]
        omega
      have hposf : stf.pos = o := by omega
      refine ⟨stf, ?_, hinvf, hposf, ?_⟩
      · rw [sSeek, if_neg hmc]
        simp only [hmax, if_neg hcond, heqm]
        rw [if_pos (show stm.mode ≠ FMode.readEof by rw [hmodem]; simp)]
        simp only [hrb, hposf]
      · rcases hinvf with ⟨hm2, _⟩ | ⟨hm2, _⟩ <;> rw [hm2] <;> simp
    · obtain ⟨heqm, hinvm⟩ := (moveToBlock_ok idx C hv st o hbelt).2 (by omega)
      have hoeq : o = indexTotal idx := by omega
      refine ⟨{ st with pos := indexTotal idx, mode := .readEof }, ?_, hinvm,
        by simp [hoeq], by simp⟩
      rw [sSeek, if_neg hmc]
      simp only [hmax, if_neg hcond, heqm]
      rw [if_neg (by simp)]
      simp [hoeq]

/-- `read` with a nonnegative byte count, under the invariant: it returns the
next `n` bytes of the uncompressed content (fewer at the end). -/
theorem sRead_ok (idx : List XZBlock) (C : XZBlock → List Nat) (csz fuel : Nat)
    (hv : ValidIndex idx C) (hcsz : 0 < csz) (st : SeekSt) (n : Nat)
    (hf : n + 1 ≤ fuel) (hinv : SInv idx C st) (hmc : st.mode ≠ .closed) :
    ∃ st2, sRead idx C csz fuel st (n : Int) =
      .ok (st2, ((fullContent idx C).drop st.pos).take n) := by
  have hlen : (fullContent idx C).length = indexTotal idx :=
    fullContent_length idx C hv.2
  rcases hinv2 : hinv with ⟨hme, hpt, _⟩ | ⟨hmr, _⟩
  · refine ⟨st, ?_⟩
    rw [sRead, if_neg hmc, if_pos (Or.inl hme)]
    have : (fullContent idx C).drop st.pos = [] :=
      List.drop_eq_nil_of_le (by omega)
    rw [this]
    simp
  · by_cases hn0 : n = 0
    · subst hn0
      refine ⟨st, ?_⟩
      rw [sRead, if_neg hmc,
        if_pos (show st.mode = FMode.readEof ∨ (((0 : Nat) : Int)) = 0 from
          Or.inr (by simp))]
      simp
    · obtain ⟨stf, hrb, _, _, _⟩ :=
        sReadBlock_ok idx C csz hv hcsz fuel st n hf hmr hinv
      refine ⟨stf, ?_⟩
      rw [sRead, if_neg hmc,
        if_neg (by
          rintro (hme | hz)
          · rw [hmr] at hme; exact absurd hme (by simp)
          · exact hn0 (by omega)),
        if_neg (by omega)]
      have : ((n : Int)).toNat = n := by omega
      rw [this, hrb]

/-- C1: for every byte sequence `b`, one-shot `decompress` applied to the
result of one-shot `compress` of `b` (drivers embedded from the source, run
over the model codec) returns exactly `b`. -/
theorem claim_C1 (b : List Nat) (cf df of : Nat)
    (hcf : 2 * b.length + 2 ≤ cf)
    (hdf : 2 * (toyCompress b).length + 2 ≤ df) (hof : 1 ≤ of) :
    ∃ c, oneShotCompress toyEnc cf b = .ok c ∧
      oneShotDecompress toyDec df of c = .ok b :=
  ⟨toyCompress b, oneShotCompress_toy b cf hcf,
    oneShotDecompress_toy_one b df of hdf hof⟩

/-- C1 witness: the round trip at `b = [5, 0, 1]`. -/
theorem claim_C1_witness :
    ∃ c, oneShotCompress toyEnc 10 [5, 0, 1] = .ok c ∧
      oneShotDecompress toyDec 20 1 c = .ok [5, 0, 1] :=
  claim_C1 [5, 0, 1] 10 20 1 (by decide) (by decide) (by decide)

/-- C3: two independently compressed streams laid end to end decompress to
`a ++ b`, both through the sequential file wrapper and through one-shot
`decompress`. -/
theorem claim_C3 (a b : List Nat) (dfuel ffuel rfuel ofuel : Nat)
    (hdf : 2 * BUFFER_SIZE + 2 ≤ dfuel)
    (hod : 2 * (toyCompress a ++ toyCompress b).length + 2 ≤ dfuel)
    (hff : (toyCompress a ++ toyCompress b).length + 2 ≤ ffuel)
    (hrf : (a ++ b).length + 1 ≤ rfuel) (hoo : 2 ≤ ofuel) :
    (∃ st3, LZMAFile.readAll toyDec dfuel ffuel rfuel
        (LZMAFile.openRead toyDec (toyCompress a ++ toyCompress b)) =
        .ok (st3, a ++ b)) ∧
    oneShotDecompress toyDec dfuel ofuel (toyCompress a ++ toyCompress b) =
      .ok (a ++ b) := by
  constructor
  · exact readAll_toy rfuel (LZMAFile.openRead toyDec (toyCompress a ++ toyCompress b))
      (a ++ b) (a ++ b) dfuel ffuel (wrapPend_open_two a b) rfl (fun _ => rfl)
      (by simpa [LZMAFile.openRead, LZMADecompressor.mk] using hff)
      hdf (by simp [LZMAFile.openRead, LZMADecompressor.mk]; omega) hrf
  · exact oneShotDecompress_toy_two a b dfuel ofuel hod hoo

/-- C3 witness: `a = [4]`, `b = [5, 6]`. -/
theorem claim_C3_witness :
    (∃ st3, LZMAFile.readAll toyDec 16500 20 10
        (LZMAFile.openRead toyDec (toyCompress [4] ++ toyCompress [5, 6])) =
        .ok (st3, [4] ++ [5, 6])) ∧
    oneShotDecompress toyDec 16500 2 (toyCompress [4] ++ toyCompress [5, 6]) =
      .ok ([4] ++ [5, 6]) :=
  claim_C3 [4] [5, 6] 16500 20 10 2 (by decide) (by decide) (by decide)
    (by decide) (by decide)

/-- C4: for every engine, a successful `_decompress` or `_compress` call
returns exactly the concatenation, in order, of the output segments the
engine produced during that call (the ghost `trace` records each engine
call's written bytes). -/
theorem claim_C4 {σ : Type} (E : Engine σ) (fuel : Nat) (data : List Nat) :
    (∀ (dec : DecompSt σ) (r : DecCall σ),
      decompressBody E fuel dec data = .ok r → r.out = r.trace.flatten) ∧
    (∀ (lzs : σ) (action : LzAction) (r : CompCall σ),
      compressBody E fuel lzs data action = .ok r → r.out = r.trace.flatten) := by
  constructor
  · intro dec r h
    rw [decompressBody] at h
    cases hl : decLoop E fuel
        { dec := dec, inp := data, done := [], cur := [], curSize := 8192,
          trace := [] } with
    | error e => rw [hl] at h; exact absurd h (by simp [Except.map])
    | ok s =>
      rw [hl] at h
      simp only [Except.map, Except.ok.injEq] at h
      have hout := decLoop_out E fuel _ s [] hl (by simp)
      rw [← h]
      simpa using hout
  · intro lzs action r h
    rw [compressBody] at h
    cases hl : compLoop E action fuel
        { lzs := lzs, inp := data, done := [], cur := [], curSize := 8192,
          trace := [] } with
    | error e => rw [hl] at h; exact absurd h (by simp [Except.map])
    | ok s =>
      rw [hl] at h
      simp only [Except.map, Except.ok.injEq] at h
      have hout := compLoop_out E action fuel _ s [] hl (by simp)
      rw [← h]
      simpa using hout

/-- C4 witness: a `_decompress` call of the model codec whose result record
satisfies the segment-concatenation law. -/
theorem claim_C4_witness :
    (⟨[5], ⟨CHECK_UNKNOWN, [], true, false⟩, [[], [5], []], []⟩ :
        DecCall Bool).out =
      (⟨[5], ⟨CHECK_UNKNOWN, [], true, false⟩, [[], [5], []], []⟩ :
        DecCall Bool).trace.flatten :=
  (claim_C4 toyDec 10 [1, 5, 0]).1 ⟨CHECK_UNKNOWN, [], false, false⟩ _ (by decide)

/-- C5: a complete stream followed by `N` extra bytes decompresses in one
call without error, sets `eof`, and leaves exactly those bytes, verbatim, in
`unused_data`. -/
theorem claim_C5 (b g : List Nat) (fuel : Nat)
    (hf : 2 * (toyCompress b ++ g).length + 2 ≤ fuel) :
    LZMADecompressor.decompress toyDec fuel (LZMADecompressor.mk toyDec)
      (toyCompress b ++ g) = .ok (b, ⟨CHECK_UNKNOWN, g, true, false⟩) := by
  have hrun : toyRun false (toyCompress b ++ g) = some ⟨b, true, g, false⟩ := by
    rw [show toyCompress b ++ g = encodeBytes b ++ 0 :: g by
      rw [toyCompress, List.append_assoc]; rfl]
    exact toyRun_stream b g
  rw [mk_toyDec_eq]
  exact decompress_toy (toyCompress b ++ g) CHECK_UNKNOWN false
    ⟨b, true, g, false⟩ fuel hrun hf

/-- C5 witness: stream of `[5]` followed by the two extra bytes `[9, 9]`. -/
theorem claim_C5_witness :
    LZMADecompressor.decompress toyDec 20 (LZMADecompressor.mk toyDec)
      (toyCompress [5] ++ [9, 9]) =
      .ok ([5], ⟨CHECK_UNKNOWN, [9, 9], true, false⟩) :=
  claim_C5 [5] [9, 9] 20 (by decide)

/-- C6: feeding after the terminal condition errors for every engine —
`decompress` with `eof` set raises `EOFError`, `compress`/`flush` on a
flushed compressor raise `ValueError` — and a successful `flush` leaves the
compressor flushed, so a second `flush` is that error. -/
theorem claim_C6 {σ : Type} (E : Engine σ) (fuel : Nat) (d : DecompSt σ)
    (c : CompressSt σ) (data : List Nat)
    (hd : d.eof = true) (hc : c.flushed = true) :
    LZMADecompressor.decompress E fuel d data = .error .alreadyEOF ∧
    LZMACompressor.compress E fuel c data = .error .flushedAlready ∧
    LZMACompressor.flush E fuel c = .error .flushedAlready ∧
    ∀ (c0 : CompressSt σ) (o : List Nat) (c1 : CompressSt σ),
      LZMACompressor.flush E fuel c0 = .ok (o, c1) → c1.flushed = true := by
  refine ⟨?_, ?_, ?_, ?_⟩
  · rw [LZMADecompressor.decompress, if_pos hd]
  · rw [LZMACompressor.compress, if_pos hc]
  · rw [LZMACompressor.flush, if_pos hc]
  · intro c0 o c1 h
    rw [LZMACompressor.flush] at h
    by_cases hf0 : c0.flushed
    · rw [if_pos hf0] at h
      exact absurd h (by simp)
    · rw [if_neg hf0] at h
      cases hcb : compressBody E fuel c0.lzs [] .finish with
      | error e => rw [hcb] at h; exact absurd h (by simp [Except.map])
      | ok r =>
        rw [hcb] at h
        simp only [Except.map, Except.ok.injEq, Prod.mk.injEq] at h
        rw [← h.2]

/-- C6 witness: the model codec at `eof`/flushed states. -/
theorem claim_C6_witness :
    LZMADecompressor.decompress toyDec 3 ⟨CHECK_UNKNOWN, [], true, false⟩ [1] =
      .error .alreadyEOF ∧
    LZMACompressor.compress toyEnc 3 ⟨true, false⟩ [1] =
      .error .flushedAlready ∧
    LZMACompressor.flush toyEnc 3 ⟨true, false⟩ = .error .flushedAlready ∧
    ∀ (c0 : CompressSt Bool) (o : List Nat) (c1 : CompressSt Bool),
      LZMACompressor.flush toyEnc 3 c0 = .ok (o, c1) → c1.flushed = true :=
  claim_C6 toyEnc 3 ⟨CHECK_UNKNOWN, [], true, false⟩ ⟨true, false⟩ [1] rfl rfl

/-- C9: when the source yields no more bytes while the decompressor has not
reached end-of-stream, the wrapper's `_fill_buffer` raises the premature-end
`EOFError`, and the one-shot `decompress` raises `LZMAError` for a stream
that ends before its end-of-stream marker — for every engine. -/
theorem claim_C9 {σ : Type} (E : Engine σ) (dfuel n ofuel : Nat)
    (st : LZMAFileSt σ) (data o : List Nat) (d2 : DecompSt σ)
    (hb : st.buffer = []) (hu : st.dec.unused_data = [])
    (hfp : st.fp = []) (he : st.dec.eof = false) :
    LZMAFile.fillBuffer E dfuel (n + 1) st = .error .prematureEnd ∧
    (LZMADecompressor.decompress E dfuel (LZMADecompressor.mk E) data =
        .ok (o, d2) → d2.eof = false →
      oneShotDecompress E dfuel (ofuel + 1) data = .error .prematureEnd) := by
  refine ⟨fillBuffer_premature E dfuel n st hb hu hfp he, ?_⟩
  intro hdec heof
  rw [oneShotDecompress, oneShotDecompressLoop, hdec]
  simp only [heof, if_pos]

/-- C9 witness: the model codec on an empty source / the truncated stream
`[1, 5]`. -/
theorem claim_C9_witness :
    LZMAFile.fillBuffer toyDec 8 1 (LZMAFile.openRead toyDec []) =
      .error .prematureEnd ∧
    oneShotDecompress toyDec 8 1 [1, 5] = .error .prematureEnd := by
  obtain ⟨h1, h2⟩ := claim_C9 toyDec 8 0 0 (LZMAFile.openRead toyDec [])
    [1, 5] [5] ⟨CHECK_UNKNOWN, [], false, false⟩ rfl rfl rfl rfl
  exact ⟨h1, h2 (by decide) rfl⟩

/-- C10: `unused_data` starts empty and stays empty while `eof` is false:
a successful `decompress` call started with empty `unused_data` and `eof`
false leaves `unused_data` empty unless that same call set `eof` — for every
engine. -/
theorem claim_C10 {σ : Type} (E : Engine σ) :
    (LZMADecompressor.mk E).unused_data = [] ∧
    (LZMADecompressor.mk E).eof = false ∧
    ∀ (fuel : Nat) (d : DecompSt σ) (data o : List Nat) (d2 : DecompSt σ),
      LZMADecompressor.decompress E fuel d data = .ok (o, d2) →
      d.unused_data = [] → d.eof = false →
      (d2.eof = false → d2.unused_data = []) := by
  refine ⟨rfl, rfl, ?_⟩
  intro fuel d data o d2 h hu he
  rw [LZMADecompressor.decompress, if_neg (by rw [he]; simp)] at h
  rw [decompressBody] at h
  cases hl : decLoop E fuel
      { dec := d, inp := data, done := [], cur := [], curSize := 8192,
        trace := [] } with
  | error e => rw [hl] at h; exact absurd h (by simp [Except.map])
  | ok s =>
    rw [hl] at h
    simp only [Except.map, Except.ok.injEq, Prod.mk.injEq] at h
    rw [← h.2]
    exact decLoop_unused E fuel _ s hl hu he

/-- C10 witness: a truncated model stream leaves `unused_data` empty with
`eof` still false. -/
theorem claim_C10_witness :
    ((⟨CHECK_UNKNOWN, [], false, false⟩ : DecompSt Bool)).unused_data = [] :=
  (claim_C10 toyDec).2.2 8 ⟨CHECK_UNKNOWN, [], false, false⟩ [1, 5] [5]
    ⟨CHECK_UNKNOWN, [], false, false⟩ (by decide) rfl rfl rfl

/-- C2: on a valid indexed container, `seek(o)` followed by `read(k)`
returns the same bytes as reading the file sequentially from the start
(a single `read(o + k)` on a freshly opened reader), discarding the first
`o` bytes and taking the next `k`. -/
theorem claim_C2 (idx : List XZBlock) (C : XZBlock → List Nat)
    (csz f1 f2 f3 : Nat) (o k : Nat)
    (hv : ValidIndex idx C) (hcsz : 0 < csz) (ho : o ≤ indexTotal idx)
    (hf1 : o + 1 ≤ f1) (hf2 : k + 1 ≤ f2) (hf3 : o + k + 1 ≤ f3) :
    ∃ st1 st2 st3 seqOut,
      sSeek idx C csz f1 (sOpen idx C) (o : Int) 0 = .ok (st1, o) ∧
      sRead idx C csz f2 st1 (k : Int) =
        .ok (st2, ((fullContent idx C).drop o).take k) ∧
      sRead idx C csz f3 (sOpen idx C) ((o + k : Nat) : Int) =
        .ok (st3, seqOut) ∧
      seqOut.drop o = ((fullContent idx C).drop o).take k := by
  obtain ⟨hinv0, hpos0, hmc0⟩ := sOpen_ok idx C hv
  obtain ⟨st1, hseek, hinv1, hpos1, hmc1⟩ :=
    sSeek_ok idx C csz f1 hv hcsz (sOpen idx C) o hf1 hinv0 hmc0 ho
  obtain ⟨st2, hread⟩ :=
    sRead_ok idx C csz f2 hv hcsz st1 k hf2 hinv1 hmc1
  obtain ⟨st3, hreadSeq⟩ :=
    sRead_ok idx C csz f3 hv hcsz (sOpen idx C) (o + k) hf3 hinv0 hmc0
  rw [hpos1] at hread
  rw [hpos0, List.drop_zero] at hreadSeq
  refine ⟨st1, st2, st3, (fullContent idx C).take (o + k), hseek, hread,
    hreadSeq, ?_⟩
  rw [List.drop_take]
  congr 1
  omega

/-- C2 witness: a two-block container, `o = 3`, `k = 2`. -/
theorem claim_C2_witness :
    ∃ st1 st2 st3 seqOut,
      sSeek [⟨0, 0, 4, 0⟩, ⟨9, 0, 2, 4⟩]
          (fun b => if b.uncompOff = 0 then [10, 11, 12, 13] else [14, 15])
          512 6 (sOpen [⟨0, 0, 4, 0⟩, ⟨9, 0, 2, 4⟩]
          (fun b => if b.uncompOff = 0 then [10, 11, 12, 13] else [14, 15]))
          ((3 : Nat) : Int) 0 = .ok (st1, 3) ∧
      sRead [⟨0, 0, 4, 0⟩, ⟨9, 0, 2, 4⟩]
          (fun b => if b.uncompOff = 0 then [10, 11, 12, 13] else [14, 15])
          512 6 st1 ((2 : Nat) : Int) =
        .ok (st2, ((fullContent [⟨0, 0, 4, 0⟩, ⟨9, 0, 2, 4⟩]
          (fun b => if b.uncompOff = 0 then [10, 11, 12, 13] else [14, 15])).drop
            3).take 2) ∧
      sRead [⟨0, 0, 4, 0⟩, ⟨9, 0, 2, 4⟩]
          (fun b => if b.uncompOff = 0 then [10, 11, 12, 13] else [14, 15])
          512 6 (sOpen [⟨0, 0, 4, 0⟩, ⟨9, 0, 2, 4⟩]
          (fun b => if b.uncompOff = 0 then [10, 11, 12, 13] else [14, 15]))
          ((3 + 2 : Nat) : Int) = .ok (st3, seqOut) ∧
      seqOut.drop 3 = ((fullContent [⟨0, 0, 4, 0⟩, ⟨9, 0, 2, 4⟩]
        (fun b => if b.uncompOff = 0 then [10, 11, 12, 13] else [14, 15])).drop
          3).take 2 :=
  claim_C2 [⟨0, 0, 4, 0⟩, ⟨9, 0, 2, 4⟩]
    (fun b => if b.uncompOff = 0 then [10, 11, 12, 13] else [14, 15])
    512 6 6 6 3 2
    ⟨⟨rfl, rfl, trivial⟩, by
      intro b hb
      rcases List.mem_cons.mp hb with h1 | h2
      · subst h1; rfl
      · rw [List.mem_singleton] at h2; subst h2; rfl⟩
    (by decide) (by decide) (by decide) (by decide) (by decide)

/-- C7: during index construction at open time, the flags decoded from a
stream's footer must structurally match those decoded from its header: a
parsed stream with mismatching flags makes the open-time loop fail with the
header/footer mismatch error (no reader is returned), and a stream the parse
accepts has matching flags. -/
theorem claim_C7 (env : ParseEnv) (fp : List Nat) (fuel t : Nat)
    (acc : Option PIndex) (checks : List Nat)
    (sf sf2 : StreamFlags) (ni : PIndex) (t5 : Nat)
    (hpre : parseStreamPre env fp t = .ok (sf, sf2, ni, t5)) :
    (sf.matches sf2 = false → 0 < t →
      parseLoop env fp (fuel + 1) t acc checks =
        .error .headerFooterMismatch) ∧
    (∀ r, parseStream env fp t = .ok r → sf.matches sf2 = true) := by
  have hps : parseStream env fp t =
      (if sf.matches sf2 then .ok (sf, ni, t5)
       else .error .headerFooterMismatch) := by
    rw [parseStream, hpre]
  constructor
  · intro hmm ht
    have herr : parseStream env fp t = .error .headerFooterMismatch := by
      rw [hps, if_neg (by rw [hmm]; simp)]
    simp only [parseLoop, if_pos ht, herr]
  · intro r hok
    by_cases hm : sf.matches sf2
    · exact hm
    · rw [hps, if_neg hm] at hok
      exact absurd hok (by simp)

/-- C7 witness: a tiny abstract environment and an 8-byte file whose footer
decodes check 7 while its header decodes check 3 — the open-time loop fails
with the mismatch error; with the first byte fixed to 7 the stream parses
and the flags match. -/
theorem claim_C7_witness :
    parseLoop
      ⟨2, fun c => some ⟨c.headD 0, 0, 2⟩, fun c => some ⟨c.headD 0, 0, 0⟩,
        fun _ _ => some ⟨2, []⟩⟩
      [3, 0, 9, 9, 5, 5, 7, 0] (0 + 1) 8 none [] =
      .error .headerFooterMismatch :=
  (claim_C7
    ⟨2, fun c => some ⟨c.headD 0, 0, 2⟩, fun c => some ⟨c.headD 0, 0, 0⟩,
      fun _ _ => some ⟨2, []⟩⟩
    [3, 0, 9, 9, 5, 5, 7, 0] 0 8 none [] ⟨7, 0, 2⟩ ⟨3, 0, 0⟩ ⟨2, []⟩ 0
    (by decide)).1 (by decide) (by decide)

/-- C8 (corrected): `seek` performs no block switch — in particular
constructs no new decompressor — when the target lies in the loaded block's
range at or after the current position; the source condition is
`self._pos <= offset < self._block_ends_at`, not membership of the block's
whole range. -/
theorem claim_C8 (idx : List XZBlock) (C : XZBlock → List Nat)
    (csz fuel : Nat) (st : SeekSt) (off : Nat)
    (hv : ValidIndex idx C) (hcsz : 0 < csz) (hm : st.mode = .read)
    (hinv : SInv idx C st) (hpo : st.pos ≤ off) (hlt : off < st.blockEndsAt)
    (hf : off + 1 ≤ fuel) :
    ∃ st2, sSeek idx C csz fuel st (off : Int) 0 = .ok (st2, off) ∧
      st2.decompCount = st.decompCount ∧
      st2.blockEndsAt = st.blockEndsAt ∧ st2.pos = off := by
  have hmc : st.mode ≠ .closed := by rw [hm]; simp
  have hlen : (fullContent idx C).length = indexTotal idx :=
    fullContent_length idx C hv.2
  have hbelt := SInv_be_le_total idx C hv st hinv
  have hmax : ((max (off : Int) 0)).toNat = off := by omega
  have hcond : st.pos ≤ off ∧ off < st.blockEndsAt := ⟨hpo, hlt⟩
  obtain ⟨stf, hrb, hpf, hinvf, hframe⟩ := sReadBlock_ok idx C csz hv hcsz fuel
    st (off - st.pos) (by omega) hm hinv
  obtain ⟨hdc, hbe⟩ := hframe (by omega)
  have houtlen :
      ((((fullContent idx C).drop st.pos)).take (off - st.pos)).length =
      off - st.pos := by
    rw [List.length_take, List.length_drop]
    omega
  have hposf : stf.pos = off := by omega
  refine ⟨stf, ?_, hdc, hbe, hposf⟩
  rw [sSeek, if_neg hmc]
  simp only [hmax, if_pos hcond]
  rw [if_pos (show st.mode ≠ FMode.readEof by rw [hm]; simp)]
  simp only [hrb, hposf]

/-- C8 witness: forward in-block seek from position 1 to 3 in a one-block
container leaves the decompressor-construction count unchanged. -/
theorem claim_C8_witness :
    ∃ st2, sSeek [⟨0, 0, 4, 0⟩] (fun _ => [10, 11, 12, 13]) 512 4
        (⟨.read, 1, 0, 4, [11], [12, 13], 1⟩ : SeekSt) ((3 : Nat) : Int) 0 =
        .ok (st2, 3) ∧
      st2.decompCount = (⟨.read, 1, 0, 4, [11], [12, 13], 1⟩ : SeekSt).decompCount ∧
      st2.blockEndsAt = (⟨.read, 1, 0, 4, [11], [12, 13], 1⟩ : SeekSt).blockEndsAt ∧
      st2.pos = 3 :=
  claim_C8 [⟨0, 0, 4, 0⟩] (fun _ => [10, 11, 12, 13]) 512 4
    ⟨.read, 1, 0, 4, [11], [12, 13], 1⟩ 3
    ⟨⟨rfl, trivial⟩, by
      intro b hb
      rw [List.mem_singleton] at hb
      subst hb
      rfl⟩
    (by decide) rfl
    (Or.inr ⟨rfl, [], ⟨0, 0, 4, 0⟩, [], rfl, rfl, rfl, by decide, by decide, by decide⟩)
    (by decide) (by decide) (by decide)

/-- C8 counterexample: a backward seek to offset 1, which lies inside the
loaded block's range `[0, 4)` but before the current position 2, reloads the
block — the ghost decompressor-construction count rises from 1 to 2, so a
new decompressor is constructed even though the target is in the loaded
block's uncompressed range. -/
theorem claim_C8_counterexample :
    sSeek [⟨0, 0, 4, 0⟩] (fun _ => [10, 11, 12, 13]) 512 4
        (⟨.read, 2, 0, 4, [], [12, 13], 1⟩ : SeekSt) 1 0 =
      .ok (⟨.read, 1, 0, 4, [11, 12, 13], [], 2⟩, 1) ∧
    (⟨.read, 2, 0, 4, [], [12, 13], 1⟩ : SeekSt).blockOffset ≤ 1 ∧
    (1 : Nat) < (⟨.read, 2, 0, 4, [], [12, 13], 1⟩ : SeekSt).blockEndsAt ∧
    (⟨.read, 1, 0, 4, [11, 12, 13], [], 2⟩ : SeekSt).decompCount ≠
      (⟨.read, 2, 0, 4, [], [12, 13], 1⟩ : SeekSt).decompCount := by
  refine ⟨by decide, by decide, by decide, by decide⟩

end LzmaModel
